import Mathlib

/-!
Shallow embedding of the generic hash map of this repository
(src/lib/hashmap.h) together with its linked-list collaborator
(src/lib/list.h) and the option/status-code protocol (src/lib/vec.h,
DECL_OPTION / OPT_NONE / OPT_SOME / OPT_NONE_ERR).

Modelling conventions:
  * C `long` and `int` quantities are modelled as `Int` (no overflow occurs
    in the modelled range; loop counters are erased).
  * The C `%` operator on integers truncates toward zero, which is `Int.tmod`.
  * `malloc` outcomes are supplied by an explicit allocation oracle
    (`AllocSt`, a list of booleans consumed front to back; an exhausted
    oracle means every further allocation succeeds, so `[]` is the
    all-allocations-succeed run).
  * Pointers to list nodes (`Node *`) are represented by the position of
    the node in the chain, counted from the root; the `prev` pointer of
    `_ll_remove` is `Option Nat` (`none` for `NULL`).
  * Functions that mutate through a pointer return the updated structure;
    a function that performs no store returns its input unchanged.
  * `free` calls do not change the abstract state and are erased.
-/

namespace Hmap

/-- Status codes. The header `errors.h` is not among the provided sources.
Modelled from the spec: the error taxonomy is `OUT_OF_MEMORY` and
`BAD_ARGUMENT` beside the OK code, and C truthiness (`if (res)`) treats
`STATUS_OK` as the unique falsy code; `ERROR_BAD_ARG` is the code used by
`src/lib/vec.h` for a zero-capacity construction. -/
inductive StatusCode where
  | STATUS_OK
  | ERROR_OUT_OF_MEM
  | ERROR_BAD_ARG
deriving DecidableEq

open StatusCode

/-- C truthiness of a status code: `if (res)` runs the branch exactly when
the code is not `STATUS_OK` (which is 0). -/
def StatusCode.isErr : StatusCode → Bool
  | STATUS_OK => false
  | ERROR_OUT_OF_MEM => true
  | ERROR_BAD_ARG => true

/-- The option struct generated by `DECL_OPTION(Type)` (src/lib/vec.h):
fields `item`, `present`, `error`.  `opt_Type_none()` zero-initializes the
struct apart from `present = false`, so its `error` field is `STATUS_OK`
(code 0) and its `item` bytes are never read (modelled as `none`). -/
structure COpt (T : Type) where
  item : Option T
  present : Bool
  error : StatusCode

/-- `OPT_NONE(Type)`: absent, error zero-initialized to `STATUS_OK`. -/
def COpt.mkNone (T : Type) : COpt T :=
  { item := Option.none, present := false, error := STATUS_OK }

/-- `OPT_SOME(Type, expr)`: present with the given item. -/
def COpt.mkSome {T : Type} (v : T) : COpt T :=
  { item := Option.some v, present := true, error := STATUS_OK }

/-- `OPT_NONE_ERR(Type, code)`: an absent option with its error field set. -/
def COpt.mkNoneErr (T : Type) (code : StatusCode) : COpt T :=
  { item := Option.none, present := false, error := code }

/-- Allocation oracle: the outcomes of successive `malloc` calls, consumed
front to back.  An exhausted oracle yields successes, so `[]` models a run
in which every allocation succeeds. -/
abbrev AllocSt := List Bool

/-- Draw the outcome of one `malloc` call from the oracle. -/
def mallocTry : AllocSt → Bool × AllocSt
  | [] => (true, [])
  | b :: rest => (b, rest)

/-- `LinkedList` (src/lib/list.h): `entries` is the sequence of node
payloads from `root` to `last`; `length` is the separate C `long length`
field, tracked exactly as the source updates it. -/
structure LinkedList (T : Type) where
  entries : List T
  length : Int

/-- `_ll_new` (src/lib/list.h:95): zeroed list. -/
def _ll_new {T : Type} : LinkedList T :=
  { entries := [], length := 0 }

/-- `_ll_pushb` (src/lib/list.h:105): allocate a node; on failure return
`ERROR_OUT_OF_MEM` with the list unmodified; if `root == NULL` the list
becomes the single node with `length = 1`, otherwise the node is appended
and `length` incremented. -/
def _ll_pushb {T : Type} (a : AllocSt) (list : LinkedList T) (item : T) :
    AllocSt × StatusCode × LinkedList T :=
  let (ok, a') := mallocTry a
  if !ok then
    (a', ERROR_OUT_OF_MEM, list)
  else if list.entries.isEmpty then
    (a', STATUS_OK, { entries := [item], length := 1 })
  else
    (a', STATUS_OK, { entries := list.entries ++ [item], length := list.length + 1 })

/-- `_ll_pushf` (src/lib/list.h:163): allocate a node; on failure return
`ERROR_OUT_OF_MEM` with the list unmodified; otherwise the node is
prepended (`node->next = list->root`). -/
def _ll_pushf {T : Type} (a : AllocSt) (list : LinkedList T) (item : T) :
    AllocSt × StatusCode × LinkedList T :=
  let (ok, a') := mallocTry a
  if !ok then
    (a', ERROR_OUT_OF_MEM, list)
  else if list.entries.isEmpty then
    (a', STATUS_OK, { entries := [item], length := 1 })
  else
    (a', STATUS_OK, { entries := item :: list.entries, length := list.length + 1 })

/-- `_ll_popf` (src/lib/list.h:187): empty list yields an absent option;
a single node (`root == last`) zeroes the list; otherwise the root is
removed and `length` decremented. -/
def _ll_popf {T : Type} (list : LinkedList T) : COpt T × LinkedList T :=
  match list.entries with
  | [] => (COpt.mkNone T, list)
  | x :: rest =>
    if rest.isEmpty then
      (COpt.mkSome x, { entries := [], length := 0 })
    else
      (COpt.mkSome x, { entries := rest, length := list.length - 1 })

/-- `_ll_popb` (src/lib/list.h:130): empty list yields an absent option;
a single node (`root == last`) zeroes the list; otherwise the last node is
removed and `length` decremented. -/
def _ll_popb {T : Type} (list : LinkedList T) : COpt T × LinkedList T :=
  match list.entries with
  | [] => (COpt.mkNone T, list)
  | x :: rest =>
    if rest.isEmpty then
      (COpt.mkSome x, { entries := [], length := 0 })
    else
      (COpt.mkSome ((x :: rest).getLast (List.cons_ne_nil x rest)),
       { entries := (x :: rest).dropLast, length := list.length - 1 })

/-- `_ll_remove` (src/lib/list.h:225).  `node` is the position of the node
to remove (its `Node *`), `prev` the position of the alleged predecessor or
`none` for `NULL`.  Branches as in the source: empty list is a no-op; the
root falls back to `_ll_popf`; the last node falls back to `_ll_popb`;
otherwise the node is spliced out only when `prev` really is its
predecessor (`prev->next == node`), and anything else is a no-op. -/
def _ll_remove {T : Type} (list : LinkedList T) (node : Nat) (prev : Option Nat) :
    LinkedList T :=
  if list.entries.isEmpty then
    list
  else if node = 0 then
    (_ll_popf list).2
  else if node = list.entries.length - 1 then
    (_ll_popb list).2
  else
    match prev with
    | Option.some p =>
      if p + 1 = node ∧ node < list.entries.length then
        { entries := list.entries.eraseIdx node, length := list.length - 1 }
      else
        list
    | Option.none => list

/-- `HMapEntry` (src/lib/hashmap.h:60): an owned key/value pair. -/
structure HMapEntry (K V : Type) where
  key : K
  val : V

/-- `HashMap` (src/lib/hashmap.h:78): bucket array, size, capacity and the
two injected strategy functions.  The C hash function returns `int`,
modelled as `Int`. -/
structure HashMap (K V : Type) where
  buckets : List (LinkedList (HMapEntry K V))
  size : Int
  capacity : Int
  hash_func : K → Int
  key_cmp : K → K → Bool

/-- `INITIAL_HASHMAP_CAPACITY` (src/lib/hashmap.h:51). -/
def INITIAL_HASHMAP_CAPACITY : Int := 100

/-- `HASHMAP_GROWTH_FACTOR` (src/lib/hashmap.h:52) is the double `2.0`;
`2.0 * capacity` truncated back to `long` equals `2 * capacity` throughout
the modelled range. -/
def HASHMAP_GROWTH_FACTOR : Int := 2

/-- The bucket index expression `map->hash_func(key) % map->capacity`
shared verbatim by `_hmap_put` (hashmap.h:190), `_hmap_get` (hashmap.h:250)
and `_hmap_remove` (hashmap.h:266).  C `%` truncates toward zero. -/
def bucketPos {K V : Type} (m : HashMap K V) (key : K) : Int :=
  (m.hash_func key).tmod m.capacity

/-- The bucket index as the array subscript actually used;
`keyIdx m.hash_func m.capacity k` is definitionally `(bucketPos m k).toNat`. -/
def keyIdx {K : Type} (hf : K → Int) (cap : Int) (k : K) : Nat :=
  ((hf k).tmod cap).toNat

/-- Read `map->buckets[pos]`.  All theorems below keep `pos` in bounds, so
the default is never exercised under their hypotheses. -/
def bucketAt {K V : Type} (m : HashMap K V) (pos : Nat) :
    LinkedList (HMapEntry K V) :=
  m.buckets.getD pos _ll_new

/-- `_hmap_new_cap` (src/lib/hashmap.h:167): allocate the bucket array
(absent option with `ERROR_OUT_OF_MEM` on failure), initialize `capacity`
empty chains, return the map.  The source performs no zero-capacity
check. -/
def _hmap_new_cap {K V : Type} (a : AllocSt) (hash_func : K → Int)
    (key_cmp : K → K → Bool) (capacity : Int) :
    AllocSt × COpt (HashMap K V) :=
  let (ok, a') := mallocTry a
  if !ok then
    (a', COpt.mkNoneErr (HashMap K V) ERROR_OUT_OF_MEM)
  else
    (a', COpt.mkSome
      { buckets := List.replicate capacity.toNat _ll_new
        size := 0
        capacity := capacity
        hash_func := hash_func
        key_cmp := key_cmp })

/-- `_hmap_new` (src/lib/hashmap.h:163): delegate with the default
capacity of 100. -/
def _hmap_new {K V : Type} (a : AllocSt) (hash_func : K → Int)
    (key_cmp : K → K → Bool) : AllocSt × COpt (HashMap K V) :=
  _hmap_new_cap a hash_func key_cmp INITIAL_HASHMAP_CAPACITY

/-- The overwrite scan of `_hmap_put` (src/lib/hashmap.h:220): walk the
chain from the root; at the first node whose stored key matches under
`key_cmp(curr->data.key, key)` overwrite `curr->data.val` in place and
stop; `none` when the walk falls off the chain. -/
def putScan {K V : Type} (key_cmp : K → K → Bool) (key : K) (val : V) :
    List (HMapEntry K V) → Option (List (HMapEntry K V))
  | [] => Option.none
  | e :: rest =>
    if key_cmp e.key key then
      Option.some ({ key := e.key, val := val } :: rest)
    else
      match putScan key_cmp key val rest with
      | Option.some rest' => Option.some (e :: rest')
      | Option.none => Option.none

/-- The inner `while ((entry_opt = _ll_popf(...)).present)` loop of
`_resize` (src/lib/hashmap.h:147): drain one old bucket front to back and
push each entry onto the front of its recomputed new bucket.  The source
discards the `StatusCode` of `_ll_pushf`, and so does this translation:
on a failed node allocation the drained entry is dropped. -/
def drainEntries {K V : Type} (hash_func : K → Int) (new_capacity : Int) :
    AllocSt → List (HMapEntry K V) → List (LinkedList (HMapEntry K V)) →
    AllocSt × List (LinkedList (HMapEntry K V))
  | a, [], nb => (a, nb)
  | a, e :: rest, nb =>
    let new_pos := keyIdx hash_func new_capacity e.key
    let (a', _st, target') := _ll_pushf a (nb.getD new_pos _ll_new) e
    drainEntries hash_func new_capacity a' rest (nb.set new_pos target')

/-- The outer bucket loop of `_resize` (src/lib/hashmap.h:144): drain every
old bucket in index order (the `_ll_free` of each drained bucket does not
change the abstract state). -/
def moveBuckets {K V : Type} (hash_func : K → Int) (new_capacity : Int) :
    AllocSt → List (LinkedList (HMapEntry K V)) →
    List (LinkedList (HMapEntry K V)) →
    AllocSt × List (LinkedList (HMapEntry K V))
  | a, [], nb => (a, nb)
  | a, ch :: rest, nb =>
    let (a', nb') := drainEntries hash_func new_capacity a ch.entries nb
    moveBuckets hash_func new_capacity a' rest nb'

/-- `_resize` (src/lib/hashmap.h:127): compute the doubled capacity,
allocate the new bucket array (aborting with `ERROR_OUT_OF_MEM` and an
untouched map on failure), initialize the new chains, move every entry,
then install the new array and capacity.  `size` is not touched. -/
def _resize {K V : Type} (a : AllocSt) (m : HashMap K V) :
    AllocSt × StatusCode × HashMap K V :=
  let new_capacity := HASHMAP_GROWTH_FACTOR * m.capacity
  let (ok, a₁) := mallocTry a
  if !ok then
    (a₁, ERROR_OUT_OF_MEM, m)
  else
    let init := List.replicate new_capacity.toNat (_ll_new (T := HMapEntry K V))
    let (a₂, nb) := moveBuckets m.hash_func new_capacity a₁ m.buckets init
    (a₂, STATUS_OK, { m with buckets := nb, capacity := new_capacity })

/-- `_hmap_put` (src/lib/hashmap.h:189).  Fast path when the bucket's
`length` field is zero: push the entry, propagate an allocation failure,
increment `size`, and resize exactly when `size == capacity + 1`
(propagating a resize failure).  Otherwise scan for a matching key and
overwrite in place, or append the entry at the end of the chain with the
same size/resize handling. -/
def _hmap_put {K V : Type} (a : AllocSt) (m : HashMap K V) (key : K) (val : V) :
    AllocSt × StatusCode × HashMap K V :=
  let pos := keyIdx m.hash_func m.capacity key
  let list := bucketAt m pos
  if list.length = 0 then
    let entry : HMapEntry K V := { key := key, val := val }
    let (a₁, res, list') := _ll_pushb a list entry
    let m₁ := { m with buckets := m.buckets.set pos list' }
    if res.isErr then
      (a₁, res, m₁)
    else
      let m₂ := { m₁ with size := m₁.size + 1 }
      if m₂.size = m₂.capacity + 1 then
        let (a₂, error, m₃) := _resize a₁ m₂
        if error.isErr then (a₂, error, m₃) else (a₂, STATUS_OK, m₃)
      else
        (a₁, STATUS_OK, m₂)
  else
    match putScan m.key_cmp key val list.entries with
    | Option.some entries' =>
      (a, STATUS_OK,
       { m with buckets := m.buckets.set pos { entries := entries', length := list.length } })
    | Option.none =>
      let entry : HMapEntry K V := { key := key, val := val }
      let (a₁, res, list') := _ll_pushb a list entry
      let m₁ := { m with buckets := m.buckets.set pos list' }
      if res.isErr then
        (a₁, res, m₁)
      else
        let m₂ := { m₁ with size := m₁.size + 1 }
        if m₂.size = m₂.capacity + 1 then
          _resize a₁ m₂
        else
          (a₁, STATUS_OK, m₂)

/-- The lookup walk of `_hmap_get` (src/lib/hashmap.h:254): advance while
the node exists and its key does not match; the value of the first match. -/
def getScan {K V : Type} (key_cmp : K → K → Bool) (key : K) :
    List (HMapEntry K V) → Option V
  | [] => Option.none
  | e :: rest =>
    if key_cmp e.key key then Option.some e.val else getScan key_cmp key rest

/-- `_hmap_get` (src/lib/hashmap.h:249): scan the chain at
`hash_func(key) % capacity`; wrap the first matching value as present,
else return `OPT_NONE`.  The body performs no store through `map`, so the
map component of the result is the input state. -/
def _hmap_get {K V : Type} (m : HashMap K V) (key : K) :
    COpt V × HashMap K V :=
  let pos := keyIdx m.hash_func m.capacity key
  match getScan m.key_cmp key (bucketAt m pos).entries with
  | Option.some v => (COpt.mkSome v, m)
  | Option.none => (COpt.mkNone V, m)

/-- The removal walk of `_hmap_remove` (src/lib/hashmap.h:271): the
position of the first matching node together with that node's payload
(`prev` ends as the node's true predecessor). -/
def removeScan {K V : Type} (key_cmp : K → K → Bool) (key : K) :
    List (HMapEntry K V) → Option (Nat × HMapEntry K V)
  | [] => Option.none
  | e :: rest =>
    if key_cmp e.key key then
      Option.some (0, e)
    else
      match removeScan key_cmp key rest with
      | Option.some (i, f) => Option.some (i + 1, f)
      | Option.none => Option.none

/-- `_hmap_remove` (src/lib/hashmap.h:265): walk the chain tracking the
previous node; with no match return `OPT_NONE` leaving the map untouched;
on a match detach the node via `_ll_remove`, decrement `size`, and return
the removed value as present. -/
def _hmap_remove {K V : Type} (m : HashMap K V) (key : K) :
    COpt V × HashMap K V :=
  let pos := keyIdx m.hash_func m.capacity key
  let list := bucketAt m pos
  match removeScan m.key_cmp key list.entries with
  | Option.none => (COpt.mkNone V, m)
  | Option.some (i, e) =>
    let prev : Option Nat := if i = 0 then Option.none else Option.some (i - 1)
    let list' := _ll_remove list i prev
    (COpt.mkSome e.val,
     { m with buckets := m.buckets.set pos list', size := m.size - 1 })

/-- Total number of entries stored across a bucket array: the sum of the
chain node counts. -/
def sumLen {K V : Type} (bs : List (LinkedList (HMapEntry K V))) : Nat :=
  (bs.map (fun ch => ch.entries.length)).sum

/-- All entries of the map, bucket 0 first, each chain root to last. -/
def allEntries {K V : Type} (m : HashMap K V) : List (HMapEntry K V) :=
  (m.buckets.map LinkedList.entries).flatten

/-- No two (occurrences of) entries of `l` have keys that the comparison
strategy identifies: at most one entry per distinct key. -/
def KeysDistinct {K V : Type} (cmp : K → K → Bool) (l : List (HMapEntry K V)) : Prop :=
  l.Pairwise (fun e f => cmp e.key f.key = false)

/-- The spec's §3 data-model invariants quoted by claim C6: `size` is the
sum of the chain counts over all buckets, and at most one entry per
distinct key (by the equality strategy) exists in the whole map. -/
def SpecInv {K V : Type} (m : HashMap K V) : Prop :=
  m.size = (sumLen m.buckets : Int) ∧ KeysDistinct m.key_cmp (allEntries m)

/-- Well-formedness of a reachable map state: the bucket array has
`capacity` slots with positive capacity, `size` and every chain `length`
field agree with the stored entries, every entry sits in the bucket its
hash selects, and the keys within each bucket are pairwise distinct. -/
structure WF {K V : Type} (m : HashMap K V) : Prop where
  buckets_len : m.buckets.length = m.capacity.toNat
  cap_pos : 1 ≤ m.capacity
  size_eq : m.size = (sumLen m.buckets : Int)
  len_fields : ∀ ch ∈ m.buckets, ch.length = (ch.entries.length : Int)
  in_bucket : ∀ i (hi : i < m.buckets.length), ∀ e ∈ m.buckets[i].entries,
    keyIdx m.hash_func m.capacity e.key = i
  bucket_nodup : ∀ ch ∈ m.buckets, KeysDistinct m.key_cmp ch.entries

/-- The caller obligations the spec places on the injected strategies
(§3, §6, §9): the equality strategy is an equivalence, equal keys hash
equal, and hashes are non-negative. -/
structure GoodStrategies {K V : Type} (m : HashMap K V) : Prop where
  cmp_refl : ∀ a, m.key_cmp a a = true
  cmp_symm : ∀ a b, m.key_cmp a b = m.key_cmp b a
  cmp_trans : ∀ a b c, m.key_cmp a b = true → m.key_cmp b c = true →
    m.key_cmp a c = true
  cmp_hash : ∀ a b, m.key_cmp a b = true → m.hash_func a = m.hash_func b
  hash_nonneg : ∀ a, 0 ≤ m.hash_func a

/-- The chain at the key's bucket after appending the new entry at the
back, as both insert paths of `_hmap_put` produce it. -/
def appendedBucket {K V : Type} (ch : LinkedList (HMapEntry K V)) (k : K) (v : V) :
    LinkedList (HMapEntry K V) :=
  { entries := ch.entries ++ [{ key := k, val := v }]
    length := (ch.entries.length : Int) + 1 }

/-- The map state after `_hmap_put` has inserted a genuinely new entry and
incremented `size`, before any resize: the prior bucket array with the
entry appended to the chain at the key's bucket. -/
def insertMap {K V : Type} (m : HashMap K V) (k : K) (v : V) : HashMap K V :=
  { m with
    buckets := m.buckets.set (keyIdx m.hash_func m.capacity k)
      (appendedBucket (bucketAt m (keyIdx m.hash_func m.capacity k)) k v)
    size := m.size + 1 }

/-- The map state after the overwrite path of `_hmap_put` has replaced
the value of the first matching entry in the key's bucket: the chain there
becomes `l'` (same keys, same count). -/
def overwriteMap {K V : Type} (m : HashMap K V) (k : K)
    (l' : List (HMapEntry K V)) : HashMap K V :=
  { m with
    buckets := m.buckets.set (keyIdx m.hash_func m.capacity k)
      { entries := l'
        length := (bucketAt m (keyIdx m.hash_func m.capacity k)).length } }

/-- An identity-style hash on naturals, as in the repository's tests
(`itod_hash_func`). -/
def natHash : Nat → Int := fun k => (k : Int)

/-- Structural key equality on naturals, as in the tests (`int_cmp`). -/
def natCmp : Nat → Nat → Bool := fun a b => a == b

/-- A concrete capacity-1 empty map used to witness the theorems. -/
def wMap1 : HashMap Nat Nat :=
  { buckets := [_ll_new]
    size := 0
    capacity := 1
    hash_func := natHash
    key_cmp := natCmp }

/-- A concrete capacity-1 map holding the single entry (0, 10), used as
the state at which the unchecked resize re-insertion failure shows. -/
def c4map : HashMap Nat Nat :=
  { buckets := [{ entries := [{ key := 0, val := 10 }], length := 1 }]
    size := 1
    capacity := 1
    hash_func := natHash
    key_cmp := natCmp }

/-! Basic behavior of the chain operations. -/

theorem _ll_pushb_ok {T : Type} {a a' : AllocSt} (h : mallocTry a = (true, a'))
    (ch : LinkedList T) (e : T) (hlen : ch.length = (ch.entries.length : Int)) :
    _ll_pushb a ch e =
      (a', StatusCode.STATUS_OK,
       { entries := ch.entries ++ [e], length := (ch.entries.length : Int) + 1 }) := by
  cases hch : ch.entries with
  | nil => simp [_ll_pushb, h, hch]
  | cons x xs =>
    rw [hch] at hlen
    simp [_ll_pushb, h, hch, hlen]

theorem _ll_pushb_fail {T : Type} {a a' : AllocSt} (h : mallocTry a = (false, a'))
    (ch : LinkedList T) (e : T) :
    _ll_pushb a ch e = (a', StatusCode.ERROR_OUT_OF_MEM, ch) := by
  simp [_ll_pushb, h]

theorem _ll_pushf_ok {T : Type} {a a' : AllocSt} (h : mallocTry a = (true, a'))
    (ch : LinkedList T) (e : T) (hlen : ch.length = (ch.entries.length : Int)) :
    _ll_pushf a ch e =
      (a', StatusCode.STATUS_OK,
       { entries := e :: ch.entries, length := (ch.entries.length : Int) + 1 }) := by
  cases hch : ch.entries with
  | nil => simp [_ll_pushf, h, hch]
  | cons x xs =>
    rw [hch] at hlen
    simp [_ll_pushf, h, hch, hlen]

theorem _ll_pushf_fail {T : Type} {a a' : AllocSt} (h : mallocTry a = (false, a'))
    (ch : LinkedList T) (e : T) :
    _ll_pushf a ch e = (a', StatusCode.ERROR_OUT_OF_MEM, ch) := by
  simp [_ll_pushf, h]

/-- `_ll_remove` called, as `_hmap_remove` calls it, on the position of a
node of the chain with its true predecessor: the node is removed and the
count decremented, whichever branch fires. -/
theorem _ll_remove_at {T : Type} (ch : LinkedList T) (i : Nat)
    (hlen : ch.length = (ch.entries.length : Int)) (hi : i < ch.entries.length) :
    _ll_remove ch i (if i = 0 then Option.none else Option.some (i - 1)) =
      { entries := ch.entries.eraseIdx i, length := (ch.entries.length : Int) - 1 } := by
  cases hch : ch.entries with
  | nil => rw [hch] at hi; exact absurd hi (by simp)
  | cons x xs =>
    rw [hch] at hlen hi
    by_cases h0 : i = 0
    · subst h0
      cases hxs : xs with
      | nil => simp [_ll_remove, _ll_popf, hch, hxs]
      | cons y ys => simp [_ll_remove, _ll_popf, hch, hxs, hlen]
    · by_cases hlast : i = (x :: xs).length - 1
      · have hxs : xs ≠ [] := by
          intro hnil
          subst hnil
          simp only [List.length_cons, List.length_nil] at hlast
          omega
        have hlast' : i = xs.length := by
          simp only [List.length_cons] at hlast
          omega
        have hdl : (x :: xs).dropLast = (x :: xs).eraseIdx ((x :: xs).length - 1) :=
          List.dropLast_eq_eraseIdx (by simp)
        subst hlast'
        simp [_ll_remove, _ll_popb, hch, h0, List.isEmpty_iff, hxs, hdl, hlen]
      · have h1 : i - 1 + 1 = i := by omega
        have hlast' : ¬ i = xs.length := by
          simp only [List.length_cons] at hlast
          omega
        simp [_ll_remove, hch, h0, hlast', h1, hi, hlen]
        intro hc
        simp only [List.length_cons] at hi
        omega

/-! The three chain walks agree with each other and with `List.find?`. -/

theorem getScan_eq_find? {K V : Type} (cmp : K → K → Bool) (k : K)
    (l : List (HMapEntry K V)) :
    getScan cmp k l = (l.find? (fun e => cmp e.key k)).map HMapEntry.val := by
  induction l with
  | nil => simp [getScan]
  | cons e rest ih =>
    cases h : cmp e.key k with
    | true => simp [getScan, h, List.find?_cons_of_pos _ h]
    | false =>
      rw [List.find?_cons_of_neg _ (by simp [h])]
      simp [getScan, h, ih]

theorem getScan_eq_none_iff {K V : Type} (cmp : K → K → Bool) (k : K)
    (l : List (HMapEntry K V)) :
    getScan cmp k l = Option.none ↔ ∀ e ∈ l, cmp e.key k = false := by
  induction l with
  | nil => simp [getScan]
  | cons e rest ih =>
    cases h : cmp e.key k with
    | true => simp [getScan, h]
    | false => simp [getScan, h, ih]

theorem putScan_none_iff {K V : Type} (cmp : K → K → Bool) (k : K) (v : V)
    (l : List (HMapEntry K V)) :
    putScan cmp k v l = Option.none ↔ getScan cmp k l = Option.none := by
  induction l with
  | nil => simp [putScan, getScan]
  | cons e rest ih =>
    cases h : cmp e.key k with
    | true => simp [putScan, getScan, h]
    | false =>
      simp only [putScan, getScan, h, Bool.false_eq_true, if_false]
      cases hp : putScan cmp k v rest with
      | none => simpa [hp] using ih
      | some l' => simp [hp, ← ih]

theorem removeScan_none_iff {K V : Type} (cmp : K → K → Bool) (k : K)
    (l : List (HMapEntry K V)) :
    removeScan cmp k l = Option.none ↔ getScan cmp k l = Option.none := by
  induction l with
  | nil => simp [removeScan, getScan]
  | cons e rest ih =>
    cases h : cmp e.key k with
    | true => simp [removeScan, getScan, h]
    | false =>
      simp only [removeScan, getScan, h, Bool.false_eq_true, if_false]
      cases hp : removeScan cmp k rest with
      | none => simpa [hp] using ih
      | some p => simp [hp, ← ih]

theorem removeScan_some_spec {K V : Type} (cmp : K → K → Bool) (k : K)
    (l : List (HMapEntry K V)) (i : Nat) (e : HMapEntry K V)
    (h : removeScan cmp k l = Option.some (i, e)) :
    i < l.length ∧ l[i]? = Option.some e ∧ cmp e.key k = true ∧
      getScan cmp k l = Option.some e.val := by
  induction l generalizing i with
  | nil => simp [removeScan] at h
  | cons f rest ih =>
    cases hf : cmp f.key k with
    | true =>
      simp [removeScan, hf] at h
      obtain ⟨hi, hfe⟩ := h
      subst hi; subst hfe
      simp [getScan, hf]
    | false =>
      simp only [removeScan, hf, Bool.false_eq_true, if_false] at h
      cases hp : removeScan cmp k rest with
      | none => rw [hp] at h; simp at h
      | some p =>
        rw [hp] at h
        obtain ⟨j, g⟩ := p
        simp only [Option.some.injEq, Prod.mk.injEq] at h
        obtain ⟨hij, hge⟩ := h
        subst hge
        obtain ⟨hj, hget, hcmp, hscan⟩ := ih j hp
        constructor
        · simp; omega
        · refine ⟨?_, hcmp, ?_⟩
          · rw [← hij]; simpa using hget
          · simp [getScan, hf, hscan]

/-! Bucket index arithmetic. -/

theorem keyIdx_lt {K : Type} (hf : K → Int) (cap : Int) (k : K)
    (hcap : 1 ≤ cap) : keyIdx hf cap k < cap.toNat := by
  have h1 : (hf k).tmod cap < cap := Int.tmod_lt_of_pos _ (by omega)
  unfold keyIdx
  omega

theorem bucketPos_bounds {K V : Type} (m : HashMap K V) (k : K)
    (hcap : 1 ≤ m.capacity) (hh : 0 ≤ m.hash_func k) :
    0 ≤ bucketPos m k ∧ bucketPos m k < m.capacity := by
  refine ⟨Int.tmod_nonneg _ hh, Int.tmod_lt_of_pos _ (by omega)⟩

theorem putScan_some_spec {K V : Type} (cmp : K → K → Bool) (k : K) (v : V)
    (l : List (HMapEntry K V)) (hm : getScan cmp k l ≠ Option.none) :
    ∃ l', putScan cmp k v l = Option.some l' ∧
      l'.length = l.length ∧
      l'.map HMapEntry.key = l.map HMapEntry.key ∧
      getScan cmp k l' = Option.some v := by
  induction l with
  | nil => simp [getScan] at hm
  | cons e rest ih =>
    cases h : cmp e.key k with
    | true =>
      refine ⟨{ key := e.key, val := v } :: rest, ?_, ?_, ?_, ?_⟩
      · simp [putScan, h]
      · simp
      · simp
      · simp [getScan, h]
    | false =>
      have hm' : getScan cmp k rest ≠ Option.none := by
        simpa [getScan, h] using hm
      obtain ⟨l', hp, hlen, hkeys, hg⟩ := ih hm'
      refine ⟨e :: l', ?_, ?_, ?_, ?_⟩
      · simp [putScan, h, hp]
      · simp [hlen]
      · simp [hkeys]
      · simp [getScan, h, hg]

theorem getScan_append_of_none {K V : Type} (cmp : K → K → Bool) (k : K)
    (l₁ l₂ : List (HMapEntry K V)) (h : getScan cmp k l₁ = Option.none) :
    getScan cmp k (l₁ ++ l₂) = getScan cmp k l₂ := by
  induction l₁ with
  | nil => simp
  | cons e rest ih =>
    cases he : cmp e.key k with
    | true => simp [getScan, he] at h
    | false =>
      rw [getScan_eq_none_iff] at h
      simp only [List.cons_append, getScan, he, Bool.false_eq_true, if_false]
      exact ih (by rw [getScan_eq_none_iff]; intro f hf; exact h f (by simp [hf]))

theorem getScan_append_of_some {K V : Type} (cmp : K → K → Bool) (k : K)
    (l₁ l₂ : List (HMapEntry K V)) (v : V) (h : getScan cmp k l₁ = Option.some v) :
    getScan cmp k (l₁ ++ l₂) = Option.some v := by
  induction l₁ with
  | nil => simp [getScan] at h
  | cons e rest ih =>
    cases he : cmp e.key k with
    | true => simp_all [getScan, he]
    | false =>
      simp only [getScan, he, Bool.false_eq_true, if_false] at h
      simp only [List.cons_append, getScan, he, Bool.false_eq_true, if_false]
      exact ih h

/-! Sums of chain lengths. -/

theorem sumLen_set {K V : Type} (bs : List (LinkedList (HMapEntry K V))) (i : Nat)
    (ch : LinkedList (HMapEntry K V)) (hi : i < bs.length) :
    sumLen (bs.set i ch) + bs[i].entries.length = sumLen bs + ch.entries.length := by
  induction bs generalizing i with
  | nil => simp at hi
  | cons b rest ih =>
    cases i with
    | zero => simp [sumLen]; omega
    | succ j =>
      have hj : j < rest.length := by simpa using hi
      have := ih j hj
      simp only [List.set_cons_succ, sumLen, List.map_cons, List.sum_cons,
        List.getElem_cons_succ] at this ⊢
      omega

theorem bucketAt_eq {K V : Type} (m : HashMap K V) (p : Nat)
    (hp : p < m.buckets.length) : bucketAt m p = m.buckets[p] := by
  unfold bucketAt
  exact List.getD_eq_getElem _ _ hp

/-! Key-distinctness machinery. -/

/-- Under the caller obligations, the per-bucket key distinctness of a
well-formed map extends to the whole entry list: entries in different
buckets have different hashes. -/
theorem wf_allKeysDistinct {K V : Type} (m : HashMap K V) (hwf : WF m)
    (hhash : ∀ a b, m.key_cmp a b = true → m.hash_func a = m.hash_func b) :
    KeysDistinct m.key_cmp (allEntries m) := by
  unfold KeysDistinct allEntries
  rw [List.pairwise_flatten]
  constructor
  · intro l hl
    rw [List.mem_map] at hl
    obtain ⟨ch, hch, rfl⟩ := hl
    exact hwf.bucket_nodup ch hch
  · rw [List.pairwise_iff_get]
    intro i j hij x hx y hy
    cases hb : m.key_cmp x.key y.key with
    | false => rfl
    | true =>
      exfalso
      have hmaplen : (m.buckets.map LinkedList.entries).length = m.buckets.length := by
        simp
      have hi' : (i : Nat) < m.buckets.length := by
        have := i.isLt; omega
      have hj' : (j : Nat) < m.buckets.length := by
        have := j.isLt; omega
      have hx' : x ∈ m.buckets[(i : Nat)].entries := by
        have hxi := hx
        rw [List.get_eq_getElem, List.getElem_map] at hxi
        exact hxi
      have hy' : y ∈ m.buckets[(j : Nat)].entries := by
        have hyj := hy
        rw [List.get_eq_getElem, List.getElem_map] at hyj
        exact hyj
      have hkx := hwf.in_bucket (i : Nat) hi' x hx'
      have hky := hwf.in_bucket (j : Nat) hj' y hy'
      have hhxy := hhash x.key y.key hb
      unfold keyIdx at hkx hky
      rw [hhxy] at hkx
      rw [hkx] at hky
      have : (i : Nat) = (j : Nat) := hky
      omega

/-- In a list with pairwise-distinct keys, the first match for a key `k`
is the unique member matching `k` (given symmetry and transitivity of the
comparison). -/
theorem find?_eq_of_distinct {K V : Type} (cmp : K → K → Bool)
    (l : List (HMapEntry K V)) (k : K) (e : HMapEntry K V)
    (hnd : KeysDistinct cmp l)
    (hsymm : ∀ a b, cmp a b = cmp b a)
    (htrans : ∀ a b c, cmp a b = true → cmp b c = true → cmp a c = true)
    (he : e ∈ l) (hek : cmp e.key k = true) :
    l.find? (fun f => cmp f.key k) = Option.some e := by
  induction l with
  | nil => simp at he
  | cons g rest ih =>
    unfold KeysDistinct at hnd
    rw [List.pairwise_cons] at hnd
    obtain ⟨hg, hrest⟩ := hnd
    cases hgk : cmp g.key k with
    | true =>
      rw [List.find?_cons_of_pos _ (by simp [hgk])]
      rcases List.mem_cons.mp he with rfl | hmem
      · rfl
      · exfalso
        have h1 : cmp k e.key = true := by rw [hsymm]; exact hek
        have h2 : cmp g.key e.key = true := htrans _ _ _ hgk h1
        rw [hg e hmem] at h2
        exact Bool.false_ne_true h2
    | false =>
      rw [List.find?_cons_of_neg _ (by simp [hgk])]
      rcases List.mem_cons.mp he with rfl | hmem
      · exact absurd hek (by simp [hgk])
      · exact ih hrest hmem

theorem getD_set_self {T : Type} (l : List T) (p : Nat) (x d : T)
    (hp : p < l.length) : (l.set p x).getD p d = x := by
  rw [List.getD_eq_getElem _ _ (by simpa using hp)]
  exact List.getElem_set_self _

theorem getD_set_ne {T : Type} (l : List T) (p j : Nat) (x d : T)
    (hne : p ≠ j) : (l.set p x).getD j d = l.getD j d := by
  by_cases hj : j < l.length
  · rw [List.getD_eq_getElem _ _ (by simpa using hj), List.getD_eq_getElem _ _ hj]
    exact List.getElem_set_ne hne _
  · rw [List.getD_eq_default _ _ (by simpa using Nat.le_of_not_lt hj),
      List.getD_eq_default _ _ (Nat.le_of_not_lt hj)]

theorem getD_mem {T : Type} (l : List T) (p : Nat) (d : T)
    (hp : p < l.length) : l.getD p d ∈ l := by
  rw [List.getD_eq_getElem _ _ hp]
  exact List.getElem_mem _

/-! The resize drain: characterization of the rehashed bucket array. -/

theorem mallocTry_nil : mallocTry [] = (true, []) := rfl

theorem drainEntries_spec {K V : Type} (hf : K → Int) (ncap : Int)
    (moved : List (HMapEntry K V)) (nb : List (LinkedList (HMapEntry K V)))
    (hb : ∀ e ∈ moved, keyIdx hf ncap e.key < nb.length)
    (hlen : ∀ ch ∈ nb, ch.length = (ch.entries.length : Int)) :
    (drainEntries hf ncap [] moved nb).1 = [] ∧
    (drainEntries hf ncap [] moved nb).2.length = nb.length ∧
    (∀ ch ∈ (drainEntries hf ncap [] moved nb).2, ch.length = (ch.entries.length : Int)) ∧
    ∀ j, j < nb.length →
      ((drainEntries hf ncap [] moved nb).2.getD j _ll_new).entries
        = (moved.filter (fun e => keyIdx hf ncap e.key == j)).reverse
            ++ (nb.getD j _ll_new).entries := by
  induction moved generalizing nb with
  | nil => exact ⟨rfl, rfl, hlen, fun j hj => by simp [drainEntries]⟩
  | cons e rest ih =>
    have hpos : keyIdx hf ncap e.key < nb.length :=
      hb e (List.mem_cons_self _ _)
    have htarget : (nb.getD (keyIdx hf ncap e.key) _ll_new).length
        = ((nb.getD (keyIdx hf ncap e.key) _ll_new).entries.length : Int) :=
      hlen _ (getD_mem _ _ _ hpos)
    have hstep : drainEntries hf ncap [] (e :: rest) nb
        = drainEntries hf ncap [] rest
            (nb.set (keyIdx hf ncap e.key)
              { entries := e :: (nb.getD (keyIdx hf ncap e.key) _ll_new).entries
                length := ((nb.getD (keyIdx hf ncap e.key) _ll_new).entries.length : Int) + 1 }) := by
      simp only [drainEntries]
      rw [_ll_pushf_ok mallocTry_nil _ _ htarget]
    rw [hstep]
    set target' : LinkedList (HMapEntry K V) :=
      { entries := e :: (nb.getD (keyIdx hf ncap e.key) _ll_new).entries
        length := ((nb.getD (keyIdx hf ncap e.key) _ll_new).entries.length : Int) + 1 }
      with htdef
    set nb' := nb.set (keyIdx hf ncap e.key) target' with hnbdef
    have hlennb' : nb'.length = nb.length := by rw [hnbdef, List.length_set]
    have hlen' : ∀ ch ∈ nb', ch.length = (ch.entries.length : Int) := by
      intro ch hch
      rw [hnbdef] at hch
      rcases List.mem_or_eq_of_mem_set hch with hmem | rfl
      · exact hlen ch hmem
      · rw [htdef]
        simp
    have hb' : ∀ f ∈ rest, keyIdx hf ncap f.key < nb'.length := by
      intro f hf
      rw [hlennb']
      exact hb f (List.mem_cons_of_mem _ hf)
    obtain ⟨ha, hl, hlf, hget⟩ := ih nb' hb' hlen'
    refine ⟨ha, by rw [hl, hlennb'], hlf, ?_⟩
    intro j hj
    rw [hget j (by rw [hlennb']; exact hj)]
    by_cases hjp : keyIdx hf ncap e.key = j
    · subst hjp
      rw [hnbdef, getD_set_self _ _ _ _ hpos, htdef]
      simp only [List.filter_cons]
      rw [if_pos (by simp)]
      simp
    · rw [hnbdef, getD_set_ne _ _ _ _ _ hjp]
      simp only [List.filter_cons]
      rw [if_neg (by simpa using hjp)]

theorem moveBuckets_spec {K V : Type} (hf : K → Int) (ncap : Int)
    (old : List (LinkedList (HMapEntry K V)))
    (nb : List (LinkedList (HMapEntry K V)))
    (hb : ∀ e ∈ (old.map LinkedList.entries).flatten, keyIdx hf ncap e.key < nb.length)
    (hlen : ∀ ch ∈ nb, ch.length = (ch.entries.length : Int)) :
    (moveBuckets hf ncap [] old nb).1 = [] ∧
    (moveBuckets hf ncap [] old nb).2.length = nb.length ∧
    (∀ ch ∈ (moveBuckets hf ncap [] old nb).2, ch.length = (ch.entries.length : Int)) ∧
    ∀ j, j < nb.length →
      ((moveBuckets hf ncap [] old nb).2.getD j _ll_new).entries
        = ((old.map LinkedList.entries).flatten.filter
            (fun e => keyIdx hf ncap e.key == j)).reverse
            ++ (nb.getD j _ll_new).entries := by
  induction old generalizing nb with
  | nil => exact ⟨rfl, rfl, hlen, fun j hj => by simp [moveBuckets]⟩
  | cons ch rest ih =>
    have hbch : ∀ e ∈ ch.entries, keyIdx hf ncap e.key < nb.length := by
      intro e he
      exact hb e (by simp [List.mem_flatten]; exact Or.inl he)
    obtain ⟨ha₁, hl₁, hlf₁, hget₁⟩ := drainEntries_spec hf ncap ch.entries nb hbch hlen
    have hstep : moveBuckets hf ncap [] (ch :: rest) nb
        = moveBuckets hf ncap [] rest (drainEntries hf ncap [] ch.entries nb).2 := by
      have hpair : drainEntries hf ncap [] ch.entries nb
          = ([], (drainEntries hf ncap [] ch.entries nb).2) :=
        Prod.ext ha₁ rfl
      simp only [moveBuckets]
      rw [hpair]
    set nb₁ := (drainEntries hf ncap [] ch.entries nb).2 with hnb₁
    have hb' : ∀ e ∈ (rest.map LinkedList.entries).flatten,
        keyIdx hf ncap e.key < nb₁.length := by
      intro e he
      rw [hl₁]
      exact hb e (by simp [List.mem_flatten] at he ⊢; tauto)
    obtain ⟨ha₂, hl₂, hlf₂, hget₂⟩ := ih nb₁ hb' hlf₁
    refine ⟨by rw [hstep]; exact ha₂,
            by rw [hstep, hl₂, hl₁],
            by rw [hstep]; exact hlf₂, ?_⟩
    intro j hj
    have hj₁ : j < nb₁.length := by rw [hl₁]; exact hj
    rw [hstep, hget₂ j hj₁, hget₁ j hj]
    simp only [List.map_cons, List.flatten_cons, List.filter_append,
      List.reverse_append, List.append_assoc]

/-! Counting: the rehash partitions the entries among the new buckets. -/

theorem sum_indicator_range (N p : Nat) :
    ((List.range N).map (fun j => if p = j then 1 else 0)).sum
      = if p < N then 1 else 0 := by
  induction N with
  | zero => simp
  | succ n ih =>
    rw [List.range_succ, List.map_append, List.sum_append, ih]
    simp only [List.map_cons, List.map_nil, List.sum_cons, List.sum_nil]
    split_ifs <;> omega

theorem sum_filter_lengths {E : Type} (N : Nat) (idx : E → Nat) (l : List E)
    (h : ∀ e ∈ l, idx e < N) :
    ((List.range N).map (fun j => (l.filter (fun e => idx e == j)).length)).sum
      = l.length := by
  induction l with
  | nil => simp
  | cons e rest ih =>
    have hrest : ∀ x ∈ rest, idx x < N := fun x hx => h x (List.mem_cons_of_mem _ hx)
    have he : idx e < N := h e (List.mem_cons_self _ _)
    have hmap : ∀ j ∈ List.range N,
        ((e :: rest).filter (fun x => idx x == j)).length
          = (if idx e = j then 1 else 0)
              + (rest.filter (fun x => idx x == j)).length := by
      intro j hj
      by_cases hej : idx e = j
      · simp [List.filter_cons, hej]
        omega
      · simp [List.filter_cons, hej]
    rw [List.map_congr_left hmap, List.sum_map_add, sum_indicator_range, ih hrest,
      if_pos he]
    simp [Nat.add_comm]

theorem sumLen_eq_flatten_length {K V : Type}
    (bs : List (LinkedList (HMapEntry K V))) :
    sumLen bs = ((bs.map LinkedList.entries).flatten).length := by
  rw [sumLen, List.length_flatten, List.map_map]
  rfl

theorem sumLen_eq_range_sum {K V : Type} (bs : List (LinkedList (HMapEntry K V))) :
    sumLen bs
      = ((List.range bs.length).map
          (fun j => (bs.getD j _ll_new).entries.length)).sum := by
  induction bs with
  | nil => simp [sumLen]
  | cons b rest ih =>
    have h1 : sumLen (b :: rest) = b.entries.length + sumLen rest := by
      simp [sumLen]
    have h2 : List.map ((fun j => ((b :: rest).getD j _ll_new).entries.length) ∘ Nat.succ)
        (List.range rest.length)
        = List.map (fun j => (rest.getD j _ll_new).entries.length)
            (List.range rest.length) := by
      apply List.map_congr_left
      intro j hj
      simp [List.getD_cons_succ]
    rw [h1, ih, List.length_cons, List.range_succ_eq_map, List.map_cons, List.sum_cons,
      List.getD_cons_zero, List.map_map, h2]

/-! Characterization of a successful `_resize` run. -/

theorem _resize_spec {K V : Type} (m : HashMap K V) (hwf : WF m) :
    (_resize [] m).1 = [] ∧
    (_resize [] m).2.1 = StatusCode.STATUS_OK ∧
    (_resize [] m).2.2.capacity = HASHMAP_GROWTH_FACTOR * m.capacity ∧
    (_resize [] m).2.2.size = m.size ∧
    (_resize [] m).2.2.hash_func = m.hash_func ∧
    (_resize [] m).2.2.key_cmp = m.key_cmp ∧
    (_resize [] m).2.2.buckets.length = (HASHMAP_GROWTH_FACTOR * m.capacity).toNat ∧
    (∀ ch ∈ (_resize [] m).2.2.buckets, ch.length = (ch.entries.length : Int)) ∧
    (∀ j, j < (HASHMAP_GROWTH_FACTOR * m.capacity).toNat →
      ((_resize [] m).2.2.buckets.getD j _ll_new).entries
        = ((allEntries m).filter
            (fun e => keyIdx m.hash_func (HASHMAP_GROWTH_FACTOR * m.capacity) e.key
              == j)).reverse) ∧
    sumLen (_resize [] m).2.2.buckets = sumLen m.buckets := by
  have hcap2 : (1 : Int) ≤ HASHMAP_GROWTH_FACTOR * m.capacity := by
    have := hwf.cap_pos
    unfold HASHMAP_GROWTH_FACTOR
    omega
  have hinitlen : ∀ ch ∈ List.replicate (HASHMAP_GROWTH_FACTOR * m.capacity).toNat
      (_ll_new (T := HMapEntry K V)), ch.length = (ch.entries.length : Int) := by
    intro ch hch
    rw [List.eq_of_mem_replicate hch]
    simp [_ll_new]
  have hb : ∀ e ∈ (m.buckets.map LinkedList.entries).flatten,
      keyIdx m.hash_func (HASHMAP_GROWTH_FACTOR * m.capacity) e.key
        < (List.replicate (HASHMAP_GROWTH_FACTOR * m.capacity).toNat
            (_ll_new (T := HMapEntry K V))).length := by
    intro e he
    rw [List.length_replicate]
    exact keyIdx_lt _ _ _ hcap2
  obtain ⟨ha, hl, hlf, hget⟩ :=
    moveBuckets_spec m.hash_func (HASHMAP_GROWTH_FACTOR * m.capacity) m.buckets _ hb hinitlen
  have hinit_entries : ∀ j, j < (HASHMAP_GROWTH_FACTOR * m.capacity).toNat →
      ((List.replicate (HASHMAP_GROWTH_FACTOR * m.capacity).toNat
          (_ll_new (T := HMapEntry K V))).getD j _ll_new).entries
        = ([] : List (HMapEntry K V)) := by
    intro j hj
    rw [List.getD_eq_getElem _ _ (by simpa using hj), List.getElem_replicate]
    rfl
  have hpair : moveBuckets m.hash_func (HASHMAP_GROWTH_FACTOR * m.capacity) []
      m.buckets (List.replicate (HASHMAP_GROWTH_FACTOR * m.capacity).toNat _ll_new)
      = ([], (moveBuckets m.hash_func (HASHMAP_GROWTH_FACTOR * m.capacity) []
          m.buckets (List.replicate (HASHMAP_GROWTH_FACTOR * m.capacity).toNat _ll_new)).2) :=
    Prod.ext ha rfl
  have hres : _resize [] m
      = ([], StatusCode.STATUS_OK,
         { m with
           buckets := (moveBuckets m.hash_func (HASHMAP_GROWTH_FACTOR * m.capacity) []
             m.buckets (List.replicate (HASHMAP_GROWTH_FACTOR * m.capacity).toNat _ll_new)).2
           capacity := HASHMAP_GROWTH_FACTOR * m.capacity }) := by
    simp only [_resize, mallocTry]
    rw [hpair]
    simp
  have hbucket : ∀ j, j < (HASHMAP_GROWTH_FACTOR * m.capacity).toNat →
      ((moveBuckets m.hash_func (HASHMAP_GROWTH_FACTOR * m.capacity) []
          m.buckets (List.replicate (HASHMAP_GROWTH_FACTOR * m.capacity).toNat _ll_new)).2.getD
            j _ll_new).entries
        = ((allEntries m).filter
            (fun e => keyIdx m.hash_func (HASHMAP_GROWTH_FACTOR * m.capacity) e.key
              == j)).reverse := by
    intro j hj
    rw [hget j (by rw [List.length_replicate]; exact hj), hinit_entries j hj,
      List.append_nil]
    rfl
  have hsum : sumLen (moveBuckets m.hash_func (HASHMAP_GROWTH_FACTOR * m.capacity) []
      m.buckets (List.replicate (HASHMAP_GROWTH_FACTOR * m.capacity).toNat _ll_new)).2
        = sumLen m.buckets := by
    rw [sumLen_eq_range_sum, hl, List.length_replicate]
    have hcong : ∀ j ∈ List.range (HASHMAP_GROWTH_FACTOR * m.capacity).toNat,
        ((moveBuckets m.hash_func (HASHMAP_GROWTH_FACTOR * m.capacity) []
            m.buckets (List.replicate (HASHMAP_GROWTH_FACTOR * m.capacity).toNat
              _ll_new)).2.getD j _ll_new).entries.length
          = ((allEntries m).filter
              (fun e => keyIdx m.hash_func (HASHMAP_GROWTH_FACTOR * m.capacity) e.key
                == j)).length := by
      intro j hj
      rw [hbucket j (by simpa using hj), List.length_reverse]
    rw [List.map_congr_left hcong,
      sum_filter_lengths _ _ _ (fun e he => keyIdx_lt _ _ _ hcap2),
      sumLen_eq_flatten_length]
    rfl
  rw [hres]
  exact ⟨rfl, rfl, rfl, rfl, rfl, rfl, by simpa using hl, hlf, hbucket, hsum⟩

/-! The allocator component of all-success runs. -/

theorem _ll_pushf_nil_fst {T : Type} (ch : LinkedList T) (e : T) :
    (_ll_pushf [] ch e).1 = [] := by
  simp only [_ll_pushf, mallocTry]
  split_ifs <;> rfl

theorem drainEntries_alloc_nil {K V : Type} (hf : K → Int) (ncap : Int)
    (moved : List (HMapEntry K V)) (nb : List (LinkedList (HMapEntry K V))) :
    (drainEntries hf ncap [] moved nb).1 = [] := by
  induction moved generalizing nb with
  | nil => rfl
  | cons e rest ih =>
    simp only [drainEntries]
    have h1 : _ll_pushf [] (nb.getD (keyIdx hf ncap e.key) _ll_new) e
        = ([], (_ll_pushf [] (nb.getD (keyIdx hf ncap e.key) _ll_new) e).2.1,
           (_ll_pushf [] (nb.getD (keyIdx hf ncap e.key) _ll_new) e).2.2) :=
      Prod.ext (_ll_pushf_nil_fst _ _) (Prod.ext rfl rfl)
    rw [h1]
    exact ih _

theorem moveBuckets_alloc_nil {K V : Type} (hf : K → Int) (ncap : Int)
    (old : List (LinkedList (HMapEntry K V)))
    (nb : List (LinkedList (HMapEntry K V))) :
    (moveBuckets hf ncap [] old nb).1 = [] := by
  induction old generalizing nb with
  | nil => rfl
  | cons ch rest ih =>
    simp only [moveBuckets]
    have h1 : drainEntries hf ncap [] ch.entries nb
        = ([], (drainEntries hf ncap [] ch.entries nb).2) :=
      Prod.ext (drainEntries_alloc_nil _ _ _ _) rfl
    rw [h1]
    exact ih _

theorem _resize_alloc_nil {K V : Type} (m : HashMap K V) :
    (_resize [] m).1 = [] ∧ (_resize [] m).2.1 = StatusCode.STATUS_OK := by
  simp only [_resize, mallocTry]
  have h1 : moveBuckets m.hash_func (HASHMAP_GROWTH_FACTOR * m.capacity) [] m.buckets
      (List.replicate (HASHMAP_GROWTH_FACTOR * m.capacity).toNat _ll_new)
      = ([], (moveBuckets m.hash_func (HASHMAP_GROWTH_FACTOR * m.capacity) [] m.buckets
          (List.replicate (HASHMAP_GROWTH_FACTOR * m.capacity).toNat _ll_new)).2) :=
    Prod.ext (moveBuckets_alloc_nil _ _ _ _) rfl
  rw [h1]
  simp

/-! Shapes of the `_hmap_get` result. -/

theorem _hmap_get_fst_of_scan_some {K V : Type} (m : HashMap K V) (k : K) (v : V)
    (h : getScan m.key_cmp k
      (bucketAt m (keyIdx m.hash_func m.capacity k)).entries = Option.some v) :
    (_hmap_get m k).1 = COpt.mkSome v := by
  simp only [_hmap_get, h]

theorem _hmap_get_fst_of_scan_none {K V : Type} (m : HashMap K V) (k : K)
    (h : getScan m.key_cmp k
      (bucketAt m (keyIdx m.hash_func m.capacity k)).entries = Option.none) :
    (_hmap_get m k).1 = COpt.mkNone V := by
  simp only [_hmap_get, h]

theorem _hmap_get_scan_ne_none_of_present {K V : Type} (m : HashMap K V) (k : K)
    (h : (_hmap_get m k).1.present = true) :
    getScan m.key_cmp k
      (bucketAt m (keyIdx m.hash_func m.capacity k)).entries ≠ Option.none := by
  intro hs
  rw [_hmap_get_fst_of_scan_none m k hs] at h
  simp [COpt.mkNone] at h

theorem _hmap_get_scan_none_of_absent {K V : Type} (m : HashMap K V) (k : K)
    (h : (_hmap_get m k).1.present = false) :
    getScan m.key_cmp k
      (bucketAt m (keyIdx m.hash_func m.capacity k)).entries = Option.none := by
  cases hs : getScan m.key_cmp k
      (bucketAt m (keyIdx m.hash_func m.capacity k)).entries with
  | some v => rw [_hmap_get_fst_of_scan_some m k v hs] at h; simp [COpt.mkSome] at h
  | none => rfl

theorem _hmap_get_scan_some_of_mkSome {K V : Type} (m : HashMap K V) (k : K) (v : V)
    (h : (_hmap_get m k).1 = COpt.mkSome v) :
    getScan m.key_cmp k
      (bucketAt m (keyIdx m.hash_func m.capacity k)).entries = Option.some v := by
  cases hs : getScan m.key_cmp k
      (bucketAt m (keyIdx m.hash_func m.capacity k)).entries with
  | some w =>
    rw [_hmap_get_fst_of_scan_some m k w hs] at h
    simp only [COpt.mkSome, COpt.mk.injEq, Option.some.injEq] at h
    rw [h.1]
  | none =>
    rw [_hmap_get_fst_of_scan_none m k hs] at h
    simp [COpt.mkNone, COpt.mkSome] at h

/-! Membership and well-formedness after a successful resize. -/

theorem _resize_bucket_mem {K V : Type} (m : HashMap K V) (hwf : WF m)
    (j : Nat) (hj : j < (HASHMAP_GROWTH_FACTOR * m.capacity).toNat)
    (e : HMapEntry K V) :
    e ∈ ((_resize [] m).2.2.buckets.getD j _ll_new).entries
      ↔ e ∈ allEntries m
          ∧ keyIdx m.hash_func (HASHMAP_GROWTH_FACTOR * m.capacity) e.key = j := by
  obtain ⟨-, -, -, -, -, -, -, -, hget, -⟩ := _resize_spec m hwf
  rw [hget j hj]
  simp [List.mem_filter]

theorem _resize_wf {K V : Type} (m : HashMap K V) (hwf : WF m)
    (hsymm : ∀ a b, m.key_cmp a b = m.key_cmp b a)
    (hhash : ∀ a b, m.key_cmp a b = true → m.hash_func a = m.hash_func b) :
    WF (_resize [] m).2.2 := by
  obtain ⟨ha, hst, hcap, hsize, hhf, hkc, hblen, hlf, hget, hsum⟩ := _resize_spec m hwf
  have hall := wf_allKeysDistinct m hwf hhash
  constructor
  · rw [hblen, hcap]
  · rw [hcap]
    have := hwf.cap_pos
    unfold HASHMAP_GROWTH_FACTOR
    omega
  · rw [hsize, hsum]
    exact hwf.size_eq
  · exact hlf
  · intro i hi e he
    have hi' : i < (HASHMAP_GROWTH_FACTOR * m.capacity).toNat := by
      rw [← hblen]
      exact hi
    have hmem : e ∈ ((_resize [] m).2.2.buckets.getD i _ll_new).entries := by
      rw [List.getD_eq_getElem _ _ hi]
      exact he
    rw [hget i hi'] at hmem
    simp only [List.mem_reverse, List.mem_filter, beq_iff_eq] at hmem
    rw [hhf, hcap]
    exact hmem.2
  · intro ch hch
    rw [List.mem_iff_getElem] at hch
    obtain ⟨i, hi, rfl⟩ := hch
    have hi' : i < (HASHMAP_GROWTH_FACTOR * m.capacity).toNat := by
      rw [← hblen]
      exact hi
    unfold KeysDistinct
    rw [hkc]
    have hbi := hget i hi'
    rw [List.getD_eq_getElem _ _ hi] at hbi
    rw [hbi, List.pairwise_reverse]
    have hallflip : (allEntries m).Pairwise
        (fun e f => m.key_cmp f.key e.key = false) := by
      apply List.Pairwise.imp _ hall
      intro a b hab
      rw [hsymm]
      exact hab
    exact hallflip.filter _

/-- The value stored for any key retrievable before a resize is still
retrievable, with the same value, after the resize. -/
theorem get_after_resize {K V : Type} (m : HashMap K V) (hwf : WF m)
    (hsymm : ∀ a b, m.key_cmp a b = m.key_cmp b a)
    (htrans : ∀ a b c, m.key_cmp a b = true → m.key_cmp b c = true →
      m.key_cmp a c = true)
    (hhash : ∀ a b, m.key_cmp a b = true → m.hash_func a = m.hash_func b)
    (k : K) (v : V)
    (hsome : (_hmap_get m k).1 = COpt.mkSome v) :
    (_hmap_get (_resize [] m).2.2 k).1 = COpt.mkSome v := by
  obtain ⟨ha, hst, hcap, hsize, hhf, hkc, hblen, hlf, hget, hsum⟩ := _resize_spec m hwf
  have hwf' := _resize_wf m hwf hsymm hhash
  have hscan := _hmap_get_scan_some_of_mkSome m k v hsome
  -- the matching entry in the old bucket
  have hposlt : keyIdx m.hash_func m.capacity k < m.buckets.length := by
    rw [hwf.buckets_len]
    exact keyIdx_lt _ _ _ hwf.cap_pos
  rw [getScan_eq_find?] at hscan
  obtain ⟨e, hfind, hval⟩ := Option.map_eq_some'.mp hscan
  have hemem : e ∈ (bucketAt m (keyIdx m.hash_func m.capacity k)).entries :=
    List.mem_of_find?_eq_some hfind
  have hematch : m.key_cmp e.key k = true := by
    have := List.find?_some hfind
    simpa using this
  have heall : e ∈ allEntries m := by
    unfold allEntries
    rw [List.mem_flatten]
    refine ⟨(bucketAt m (keyIdx m.hash_func m.capacity k)).entries, ?_, hemem⟩
    rw [List.mem_map]
    exact ⟨bucketAt m (keyIdx m.hash_func m.capacity k),
      by unfold bucketAt; exact getD_mem _ _ _ hposlt, rfl⟩
  -- the new bucket of k
  have hcap2 : (1 : Int) ≤ HASHMAP_GROWTH_FACTOR * m.capacity := by
    have := hwf.cap_pos
    unfold HASHMAP_GROWTH_FACTOR
    omega
  have hjlt : keyIdx m.hash_func (HASHMAP_GROWTH_FACTOR * m.capacity) k
      < (HASHMAP_GROWTH_FACTOR * m.capacity).toNat :=
    keyIdx_lt _ _ _ hcap2
  have hekey : keyIdx m.hash_func (HASHMAP_GROWTH_FACTOR * m.capacity) e.key
      = keyIdx m.hash_func (HASHMAP_GROWTH_FACTOR * m.capacity) k := by
    unfold keyIdx
    rw [hhash e.key k hematch]
  have hemem' : e ∈ ((_resize [] m).2.2.buckets.getD
      (keyIdx m.hash_func (HASHMAP_GROWTH_FACTOR * m.capacity) k) _ll_new).entries :=
    (_resize_bucket_mem m hwf _ hjlt e).mpr ⟨heall, hekey⟩
  -- the scan position in the resized map coincides
  have hpos' : keyIdx (_resize [] m).2.2.hash_func (_resize [] m).2.2.capacity k
      = keyIdx m.hash_func (HASHMAP_GROWTH_FACTOR * m.capacity) k := by
    rw [hhf, hcap]
  have hposlt' : keyIdx (_resize [] m).2.2.hash_func (_resize [] m).2.2.capacity k
      < (_resize [] m).2.2.buckets.length := by
    rw [hpos', hblen]
    exact hjlt
  have hbucket' : (bucketAt (_resize [] m).2.2
      (keyIdx (_resize [] m).2.2.hash_func (_resize [] m).2.2.capacity k)).entries
        = ((_resize [] m).2.2.buckets.getD
            (keyIdx m.hash_func (HASHMAP_GROWTH_FACTOR * m.capacity) k) _ll_new).entries := by
    unfold bucketAt
    rw [hpos']
  have hnodup : KeysDistinct (_resize [] m).2.2.key_cmp
      ((_resize [] m).2.2.buckets.getD
        (keyIdx m.hash_func (HASHMAP_GROWTH_FACTOR * m.capacity) k) _ll_new).entries := by
    apply hwf'.bucket_nodup
    apply getD_mem
    rw [hblen]
    exact hjlt
  have hfind' : (((_resize [] m).2.2.buckets.getD
      (keyIdx m.hash_func (HASHMAP_GROWTH_FACTOR * m.capacity) k) _ll_new).entries.find?
        (fun f => (_resize [] m).2.2.key_cmp f.key k)) = Option.some e := by
    apply find?_eq_of_distinct _ _ _ _ hnodup
    · rw [hkc]
      exact hsymm
    · rw [hkc]
      exact htrans
    · exact hemem'
    · rw [hkc]
      exact hematch
  apply _hmap_get_fst_of_scan_some
  rw [getScan_eq_find?, hbucket', hfind']
  simp [hval]

/-! Decompositions of `_hmap_put`. -/

theorem _resize_fail {K V : Type} (m : HashMap K V) :
    _resize [false] m = ([], ERROR_OUT_OF_MEM, m) := by
  simp [_resize, mallocTry]

theorem _hmap_put_insert {K V : Type} (m : HashMap K V) (k : K) (v : V)
    (hwf : WF m)
    (hnomatch : getScan m.key_cmp k
      (bucketAt m (keyIdx m.hash_func m.capacity k)).entries = Option.none) :
    _hmap_put [] m k v
      = ([], StatusCode.STATUS_OK,
         if m.size + 1 = m.capacity + 1
         then (_resize [] (insertMap m k v)).2.2
         else insertMap m k v) := by
  have hposlt : keyIdx m.hash_func m.capacity k < m.buckets.length := by
    rw [hwf.buckets_len]
    exact keyIdx_lt _ _ _ hwf.cap_pos
  have hbmem : bucketAt m (keyIdx m.hash_func m.capacity k) ∈ m.buckets := by
    unfold bucketAt
    exact getD_mem _ _ _ hposlt
  have hlenfield := hwf.len_fields _ hbmem
  have hpush := _ll_pushb_ok mallocTry_nil
    (bucketAt m (keyIdx m.hash_func m.capacity k))
    ({ key := k, val := v } : HMapEntry K V) hlenfield
  have hscan : putScan m.key_cmp k v
      (bucketAt m (keyIdx m.hash_func m.capacity k)).entries = Option.none :=
    (putScan_none_iff _ _ _ _).mpr hnomatch
  obtain ⟨hra, hrs⟩ := _resize_alloc_nil (insertMap m k v)
  have hres3 : _resize [] (insertMap m k v)
      = ([], StatusCode.STATUS_OK, (_resize [] (insertMap m k v)).2.2) :=
    Prod.ext hra (Prod.ext hrs rfl)
  have hinsert : insertMap m k v
      = { m with
          buckets := m.buckets.set (keyIdx m.hash_func m.capacity k)
            { entries := (bucketAt m (keyIdx m.hash_func m.capacity k)).entries
                ++ [{ key := k, val := v }]
              length := ((bucketAt m (keyIdx m.hash_func m.capacity k)).entries.length : Int) + 1 }
          size := m.size + 1 } := rfl
  by_cases hthr : m.size + 1 = m.capacity + 1 <;>
    by_cases h0 : (bucketAt m (keyIdx m.hash_func m.capacity k)).length = 0
  · rw [if_pos hthr]
    simp only [_hmap_put, if_pos h0, hpush]
    simp only [StatusCode.isErr, Bool.false_eq_true, if_false]
    rw [← hinsert, if_pos hthr, hrs, hra]
    simp
  · rw [if_pos hthr]
    simp only [_hmap_put, if_neg h0, hscan, hpush]
    simp only [StatusCode.isErr, Bool.false_eq_true, if_false]
    rw [← hinsert, if_pos hthr]
    exact hres3
  · rw [if_neg hthr]
    simp only [_hmap_put, if_pos h0, hpush]
    simp only [StatusCode.isErr, Bool.false_eq_true, if_false]
    rw [← hinsert, if_neg hthr]
  · rw [if_neg hthr]
    simp only [_hmap_put, if_neg h0, hscan, hpush]
    simp only [StatusCode.isErr, Bool.false_eq_true, if_false]
    rw [← hinsert, if_neg hthr]

theorem _hmap_put_insert_resize_fail {K V : Type} (m : HashMap K V) (k : K) (v : V)
    (hwf : WF m)
    (hnomatch : getScan m.key_cmp k
      (bucketAt m (keyIdx m.hash_func m.capacity k)).entries = Option.none)
    (hthr : m.size + 1 = m.capacity + 1) :
    _hmap_put [true, false] m k v
      = ([], StatusCode.ERROR_OUT_OF_MEM, insertMap m k v) := by
  have hposlt : keyIdx m.hash_func m.capacity k < m.buckets.length := by
    rw [hwf.buckets_len]
    exact keyIdx_lt _ _ _ hwf.cap_pos
  have hbmem : bucketAt m (keyIdx m.hash_func m.capacity k) ∈ m.buckets := by
    unfold bucketAt
    exact getD_mem _ _ _ hposlt
  have hlenfield := hwf.len_fields _ hbmem
  have hmt : mallocTry [true, false] = (true, [false]) := rfl
  have hpush := _ll_pushb_ok hmt
    (bucketAt m (keyIdx m.hash_func m.capacity k))
    ({ key := k, val := v } : HMapEntry K V) hlenfield
  have hscan : putScan m.key_cmp k v
      (bucketAt m (keyIdx m.hash_func m.capacity k)).entries = Option.none :=
    (putScan_none_iff _ _ _ _).mpr hnomatch
  have hinsert : insertMap m k v
      = { m with
          buckets := m.buckets.set (keyIdx m.hash_func m.capacity k)
            { entries := (bucketAt m (keyIdx m.hash_func m.capacity k)).entries
                ++ [{ key := k, val := v }]
              length := ((bucketAt m (keyIdx m.hash_func m.capacity k)).entries.length : Int) + 1 }
          size := m.size + 1 } := rfl
  by_cases h0 : (bucketAt m (keyIdx m.hash_func m.capacity k)).length = 0
  · simp only [_hmap_put, if_pos h0, hpush]
    simp only [StatusCode.isErr, Bool.false_eq_true, if_false]
    rw [← hinsert, if_pos hthr, _resize_fail]
    simp
  · simp only [_hmap_put, if_neg h0, hscan, hpush]
    simp only [StatusCode.isErr, Bool.false_eq_true, if_false]
    rw [← hinsert, if_pos hthr, _resize_fail]

theorem _hmap_put_overwrite {K V : Type} (a : AllocSt) (m : HashMap K V)
    (k : K) (v : V) (hwf : WF m) (l' : List (HMapEntry K V))
    (hscan : putScan m.key_cmp k v
      (bucketAt m (keyIdx m.hash_func m.capacity k)).entries = Option.some l') :
    _hmap_put a m k v
      = (a, StatusCode.STATUS_OK,
         { m with
           buckets := m.buckets.set (keyIdx m.hash_func m.capacity k)
             { entries := l'
               length := (bucketAt m (keyIdx m.hash_func m.capacity k)).length } }) := by
  have hposlt : keyIdx m.hash_func m.capacity k < m.buckets.length := by
    rw [hwf.buckets_len]
    exact keyIdx_lt _ _ _ hwf.cap_pos
  have hbmem : bucketAt m (keyIdx m.hash_func m.capacity k) ∈ m.buckets := by
    unfold bucketAt
    exact getD_mem _ _ _ hposlt
  have hlenfield := hwf.len_fields _ hbmem
  have hne : ¬ (bucketAt m (keyIdx m.hash_func m.capacity k)).length = 0 := by
    intro h0
    have hz : (bucketAt m (keyIdx m.hash_func m.capacity k)).entries.length = 0 := by
      rw [h0] at hlenfield
      exact_mod_cast hlenfield.symm
    rw [List.length_eq_zero] at hz
    rw [hz] at hscan
    simp [putScan] at hscan
  simp only [_hmap_put, if_neg hne, hscan]

/-! Effect of the insert, overwrite and remove paths on well-formedness. -/

theorem insertMap_buckets {K V : Type} (m : HashMap K V) (k : K) (v : V) :
    (insertMap m k v).buckets
      = m.buckets.set (keyIdx m.hash_func m.capacity k)
          (appendedBucket (bucketAt m (keyIdx m.hash_func m.capacity k)) k v) := rfl

theorem wf_insertMap {K V : Type} (m : HashMap K V) (k : K) (v : V) (hwf : WF m)
    (hnomatch : getScan m.key_cmp k
      (bucketAt m (keyIdx m.hash_func m.capacity k)).entries = Option.none) :
    WF (insertMap m k v) := by
  have hposlt : keyIdx m.hash_func m.capacity k < m.buckets.length := by
    rw [hwf.buckets_len]
    exact keyIdx_lt _ _ _ hwf.cap_pos
  have hbeq : bucketAt m (keyIdx m.hash_func m.capacity k)
      = m.buckets[keyIdx m.hash_func m.capacity k] := bucketAt_eq m _ hposlt
  have hbmem : bucketAt m (keyIdx m.hash_func m.capacity k) ∈ m.buckets := by
    unfold bucketAt
    exact getD_mem _ _ _ hposlt
  have hnone := (getScan_eq_none_iff _ _ _).mp hnomatch
  constructor
  · rw [insertMap_buckets, List.length_set]
    exact hwf.buckets_len
  · exact hwf.cap_pos
  · show m.size + 1 = (sumLen (insertMap m k v).buckets : Int)
    have hs := sumLen_set m.buckets (keyIdx m.hash_func m.capacity k)
      (appendedBucket (bucketAt m (keyIdx m.hash_func m.capacity k)) k v) hposlt
    rw [insertMap_buckets]
    have hlen' : (appendedBucket (bucketAt m (keyIdx m.hash_func m.capacity k)) k v).entries.length
        = (bucketAt m (keyIdx m.hash_func m.capacity k)).entries.length + 1 := by
      simp [appendedBucket]
    rw [hlen', ← hbeq] at hs
    have := hwf.size_eq
    omega
  · intro ch hch
    rw [insertMap_buckets] at hch
    rcases List.mem_or_eq_of_mem_set hch with hmem | rfl
    · exact hwf.len_fields ch hmem
    · simp [appendedBucket]
  · intro i hi e he
    have hi' : i < m.buckets.length := by
      rw [insertMap_buckets, List.length_set] at hi
      exact hi
    have he' : e ∈ ((insertMap m k v).buckets.getD i _ll_new).entries := by
      rw [List.getD_eq_getElem _ _ hi]
      exact he
    rw [insertMap_buckets] at he'
    show keyIdx m.hash_func m.capacity e.key = i
    by_cases hip : keyIdx m.hash_func m.capacity k = i
    · subst hip
      rw [getD_set_self _ _ _ _ hposlt] at he'
      simp only [appendedBucket, List.mem_append, List.mem_singleton] at he'
      rcases he' with hold | rfl
      · rw [hbeq] at hold
        exact hwf.in_bucket _ hposlt e hold
      · rfl
    · rw [getD_set_ne _ _ _ _ _ hip, List.getD_eq_getElem _ _ hi'] at he'
      exact hwf.in_bucket i hi' e he'
  · intro ch hch
    rw [insertMap_buckets] at hch
    rcases List.mem_or_eq_of_mem_set hch with hmem | rfl
    · exact hwf.bucket_nodup ch hmem
    · show KeysDistinct m.key_cmp (appendedBucket (bucketAt m (keyIdx m.hash_func m.capacity k)) k v).entries
      unfold KeysDistinct appendedBucket
      rw [List.pairwise_append]
      refine ⟨hwf.bucket_nodup _ hbmem, by simp, ?_⟩
      intro e he f hf
      rw [List.mem_singleton] at hf
      subst hf
      exact hnone e he

theorem get_insertMap_same {K V : Type} (m : HashMap K V) (k : K) (v : V)
    (hwf : WF m)
    (hrefl : m.key_cmp k k = true)
    (hnomatch : getScan m.key_cmp k
      (bucketAt m (keyIdx m.hash_func m.capacity k)).entries = Option.none) :
    (_hmap_get (insertMap m k v) k).1 = COpt.mkSome v := by
  have hposlt : keyIdx m.hash_func m.capacity k < m.buckets.length := by
    rw [hwf.buckets_len]
    exact keyIdx_lt _ _ _ hwf.cap_pos
  apply _hmap_get_fst_of_scan_some
  have hpos' : keyIdx (insertMap m k v).hash_func (insertMap m k v).capacity k
      = keyIdx m.hash_func m.capacity k := rfl
  rw [hpos']
  have hbucket : bucketAt (insertMap m k v) (keyIdx m.hash_func m.capacity k)
      = appendedBucket (bucketAt m (keyIdx m.hash_func m.capacity k)) k v := by
    unfold bucketAt
    rw [insertMap_buckets]
    exact getD_set_self _ _ _ _ hposlt
  rw [hbucket]
  show getScan m.key_cmp k
    ((bucketAt m (keyIdx m.hash_func m.capacity k)).entries ++ [{ key := k, val := v }])
      = Option.some v
  rw [getScan_append_of_none _ _ _ _ hnomatch]
  simp [getScan, hrefl]

theorem get_insertMap_other {K V : Type} (m : HashMap K V) (k : K) (v : V)
    (hwf : WF m) (k₀ : K) (v₀ : V)
    (hget : (_hmap_get m k₀).1 = COpt.mkSome v₀) :
    (_hmap_get (insertMap m k v) k₀).1 = COpt.mkSome v₀ := by
  have hposlt : keyIdx m.hash_func m.capacity k < m.buckets.length := by
    rw [hwf.buckets_len]
    exact keyIdx_lt _ _ _ hwf.cap_pos
  have hscan := _hmap_get_scan_some_of_mkSome m k₀ v₀ hget
  apply _hmap_get_fst_of_scan_some
  have hpos' : keyIdx (insertMap m k v).hash_func (insertMap m k v).capacity k₀
      = keyIdx m.hash_func m.capacity k₀ := rfl
  rw [hpos']
  show getScan m.key_cmp k₀
    (bucketAt (insertMap m k v) (keyIdx m.hash_func m.capacity k₀)).entries
      = Option.some v₀
  by_cases hip : keyIdx m.hash_func m.capacity k = keyIdx m.hash_func m.capacity k₀
  · have hbucket : bucketAt (insertMap m k v) (keyIdx m.hash_func m.capacity k₀)
        = appendedBucket (bucketAt m (keyIdx m.hash_func m.capacity k)) k v := by
      unfold bucketAt
      rw [insertMap_buckets, ← hip]
      exact getD_set_self _ _ _ _ hposlt
    rw [hbucket]
    show getScan m.key_cmp k₀
      ((bucketAt m (keyIdx m.hash_func m.capacity k)).entries ++ [{ key := k, val := v }])
        = Option.some v₀
    rw [hip]
    exact getScan_append_of_some _ _ _ _ _ hscan
  · have hbucket : bucketAt (insertMap m k v) (keyIdx m.hash_func m.capacity k₀)
        = bucketAt m (keyIdx m.hash_func m.capacity k₀) := by
      unfold bucketAt
      rw [insertMap_buckets]
      exact getD_set_ne _ _ _ _ _ hip
    rw [hbucket]
    exact hscan

theorem _hmap_remove_nomatch {K V : Type} (m : HashMap K V) (k : K)
    (hscan : removeScan m.key_cmp k
      (bucketAt m (keyIdx m.hash_func m.capacity k)).entries = Option.none) :
    _hmap_remove m k = (COpt.mkNone V, m) := by
  simp only [_hmap_remove, hscan]

theorem _hmap_remove_match {K V : Type} (m : HashMap K V) (k : K)
    (hwf : WF m) (i : Nat) (e : HMapEntry K V)
    (hscan : removeScan m.key_cmp k
      (bucketAt m (keyIdx m.hash_func m.capacity k)).entries = Option.some (i, e)) :
    _hmap_remove m k
      = (COpt.mkSome e.val,
         { m with
           buckets := m.buckets.set (keyIdx m.hash_func m.capacity k)
             { entries := (bucketAt m (keyIdx m.hash_func m.capacity k)).entries.eraseIdx i
               length := ((bucketAt m (keyIdx m.hash_func m.capacity k)).entries.length : Int) - 1 }
           size := m.size - 1 }) := by
  have hposlt : keyIdx m.hash_func m.capacity k < m.buckets.length := by
    rw [hwf.buckets_len]
    exact keyIdx_lt _ _ _ hwf.cap_pos
  have hbmem : bucketAt m (keyIdx m.hash_func m.capacity k) ∈ m.buckets := by
    unfold bucketAt
    exact getD_mem _ _ _ hposlt
  have hlenfield := hwf.len_fields _ hbmem
  obtain ⟨hi, hget, hcmp, hgs⟩ := removeScan_some_spec _ _ _ _ _ hscan
  have hrem := _ll_remove_at (bucketAt m (keyIdx m.hash_func m.capacity k)) i hlenfield hi
  simp only [_hmap_remove, hscan, hrem]

theorem wf_removeMap {K V : Type} (m : HashMap K V) (k : K) (hwf : WF m)
    (i : Nat) (e : HMapEntry K V)
    (hscan : removeScan m.key_cmp k
      (bucketAt m (keyIdx m.hash_func m.capacity k)).entries = Option.some (i, e)) :
    WF (_hmap_remove m k).2 := by
  have hposlt : keyIdx m.hash_func m.capacity k < m.buckets.length := by
    rw [hwf.buckets_len]
    exact keyIdx_lt _ _ _ hwf.cap_pos
  have hbeq : bucketAt m (keyIdx m.hash_func m.capacity k)
      = m.buckets[keyIdx m.hash_func m.capacity k] := bucketAt_eq m _ hposlt
  obtain ⟨hi, hget, hcmp, hgs⟩ := removeScan_some_spec _ _ _ _ _ hscan
  rw [_hmap_remove_match m k hwf i e hscan]
  have hsub := List.eraseIdx_sublist
    (bucketAt m (keyIdx m.hash_func m.capacity k)).entries i
  have herlen : ((bucketAt m (keyIdx m.hash_func m.capacity k)).entries.eraseIdx i).length
      = (bucketAt m (keyIdx m.hash_func m.capacity k)).entries.length - 1 := by
    rw [List.length_eraseIdx]
    simp [hi]
  constructor
  · show (m.buckets.set (keyIdx m.hash_func m.capacity k) _).length = m.capacity.toNat
    rw [List.length_set]
    exact hwf.buckets_len
  · exact hwf.cap_pos
  · show m.size - 1 = _
    have hs := sumLen_set m.buckets (keyIdx m.hash_func m.capacity k)
      { entries := (bucketAt m (keyIdx m.hash_func m.capacity k)).entries.eraseIdx i
        length := ((bucketAt m (keyIdx m.hash_func m.capacity k)).entries.length : Int) - 1 }
      hposlt
    rw [herlen, ← hbeq] at hs
    have hms := hwf.size_eq
    have hlen1 : 1 ≤ (bucketAt m (keyIdx m.hash_func m.capacity k)).entries.length := by
      omega
    simp only at hs ⊢
    omega
  · intro ch hch
    rcases List.mem_or_eq_of_mem_set hch with hmem | rfl
    · exact hwf.len_fields ch hmem
    · simp only
      rw [herlen]
      have hlen1 : 1 ≤ (bucketAt m (keyIdx m.hash_func m.capacity k)).entries.length := by
        omega
      omega
  · intro j hj f hf
    have hj' : j < m.buckets.length := by
      simpa using hj
    have hf' : f ∈ ((m.buckets.set (keyIdx m.hash_func m.capacity k)
        { entries := (bucketAt m (keyIdx m.hash_func m.capacity k)).entries.eraseIdx i
          length := ((bucketAt m (keyIdx m.hash_func m.capacity k)).entries.length : Int) - 1 }).getD
            j _ll_new).entries := by
      rw [List.getD_eq_getElem _ _ hj]
      exact hf
    show keyIdx m.hash_func m.capacity f.key = j
    by_cases hjp : keyIdx m.hash_func m.capacity k = j
    · subst hjp
      rw [getD_set_self _ _ _ _ hposlt] at hf'
      have : f ∈ (bucketAt m (keyIdx m.hash_func m.capacity k)).entries :=
        hsub.subset hf'
      rw [hbeq] at this
      exact hwf.in_bucket _ hposlt f this
    · rw [getD_set_ne _ _ _ _ _ hjp, List.getD_eq_getElem _ _ hj'] at hf'
      exact hwf.in_bucket j hj' f hf'
  · intro ch hch
    rcases List.mem_or_eq_of_mem_set hch with hmem | rfl
    · exact hwf.bucket_nodup ch hmem
    · unfold KeysDistinct
      exact List.Pairwise.sublist hsub
        (hwf.bucket_nodup _ (by unfold bucketAt; exact getD_mem _ _ _ hposlt))

theorem wf_overwriteMap {K V : Type} (m : HashMap K V) (k : K) (hwf : WF m)
    (l' : List (HMapEntry K V))
    (hkeys : l'.map HMapEntry.key
      = (bucketAt m (keyIdx m.hash_func m.capacity k)).entries.map HMapEntry.key) :
    WF { m with
         buckets := m.buckets.set (keyIdx m.hash_func m.capacity k)
           { entries := l'
             length := (bucketAt m (keyIdx m.hash_func m.capacity k)).length } } := by
  have hposlt : keyIdx m.hash_func m.capacity k < m.buckets.length := by
    rw [hwf.buckets_len]
    exact keyIdx_lt _ _ _ hwf.cap_pos
  have hbeq : bucketAt m (keyIdx m.hash_func m.capacity k)
      = m.buckets[keyIdx m.hash_func m.capacity k] := bucketAt_eq m _ hposlt
  have hbmem : bucketAt m (keyIdx m.hash_func m.capacity k) ∈ m.buckets := by
    unfold bucketAt
    exact getD_mem _ _ _ hposlt
  have hlenfield := hwf.len_fields _ hbmem
  have hlen : l'.length = (bucketAt m (keyIdx m.hash_func m.capacity k)).entries.length := by
    have := congrArg List.length hkeys
    simpa using this
  constructor
  · show (m.buckets.set (keyIdx m.hash_func m.capacity k) _).length = m.capacity.toNat
    rw [List.length_set]
    exact hwf.buckets_len
  · exact hwf.cap_pos
  · show m.size = _
    have hs := sumLen_set m.buckets (keyIdx m.hash_func m.capacity k)
      { entries := l'
        length := (bucketAt m (keyIdx m.hash_func m.capacity k)).length } hposlt
    simp only at hs
    rw [hlen, ← hbeq] at hs
    have hms := hwf.size_eq
    simp only
    omega
  · intro ch hch
    rcases List.mem_or_eq_of_mem_set hch with hmem | rfl
    · exact hwf.len_fields ch hmem
    · simp only
      rw [hlen]
      exact hlenfield
  · intro j hj f hf
    have hj' : j < m.buckets.length := by
      simpa using hj
    have hf' : f ∈ ((m.buckets.set (keyIdx m.hash_func m.capacity k)
        { entries := l'
          length := (bucketAt m (keyIdx m.hash_func m.capacity k)).length }).getD
            j _ll_new).entries := by
      rw [List.getD_eq_getElem _ _ hj]
      exact hf
    show keyIdx m.hash_func m.capacity f.key = j
    by_cases hjp : keyIdx m.hash_func m.capacity k = j
    · subst hjp
      rw [getD_set_self _ _ _ _ hposlt] at hf'
      have hkey : f.key ∈ (bucketAt m (keyIdx m.hash_func m.capacity k)).entries.map
          HMapEntry.key := by
        rw [← hkeys]
        exact List.mem_map_of_mem _ hf'
      rw [List.mem_map] at hkey
      obtain ⟨g, hg, hgf⟩ := hkey
      rw [← hgf]
      rw [hbeq] at hg
      exact hwf.in_bucket _ hposlt g hg
    · rw [getD_set_ne _ _ _ _ _ hjp, List.getD_eq_getElem _ _ hj'] at hf'
      exact hwf.in_bucket j hj' f hf'
  · intro ch hch
    rcases List.mem_or_eq_of_mem_set hch with hmem | rfl
    · exact hwf.bucket_nodup ch hmem
    · unfold KeysDistinct
      simp only
      have h1 : l'.Pairwise (fun e f => m.key_cmp e.key f.key = false)
          ↔ (l'.map HMapEntry.key).Pairwise (fun a b => m.key_cmp a b = false) := by
        rw [List.pairwise_map]
      rw [h1, hkeys, List.pairwise_map]
      exact hwf.bucket_nodup _ hbmem

/-! The claims. -/

/-! Concrete instances used by the witnesses. -/

theorem gs_of_nat (m : HashMap Nat Nat) (h1 : m.hash_func = natHash)
    (h2 : m.key_cmp = natCmp) : GoodStrategies m := by
  constructor
  · intro a
    simp [h2, natCmp]
  · intro a b
    by_cases h : a = b
    · subst h
      rfl
    · have hx : (a == b) = false := by simp [h]
      have hy : (b == a) = false := by simp [Ne.symm h]
      simp [h2, natCmp, hx, hy]
  · intro a b c hab hbc
    simp [h2, natCmp] at hab hbc ⊢
    omega
  · intro a b hab
    simp [h2, natCmp] at hab
    subst hab
    rfl
  · intro a
    rw [h1]
    exact Int.natCast_nonneg a

theorem wf_wMap1 : WF wMap1 := by
  constructor
  · rfl
  · decide
  · rfl
  · intro ch hch
    simp [wMap1, _ll_new] at hch
    rw [hch]
    simp
  · intro i hi e he
    have hi1 : i = 0 := by
      simp [wMap1] at hi
      omega
    subst hi1
    simp [wMap1, _ll_new] at he
  · intro ch hch
    simp [wMap1, _ll_new] at hch
    rw [hch]
    unfold KeysDistinct
    simp

theorem wf_c4map : WF c4map := by
  constructor
  · rfl
  · decide
  · rfl
  · intro ch hch
    simp [c4map] at hch
    rw [hch]
    simp
  · intro i hi e he
    have hi1 : i = 0 := by
      simp [c4map] at hi
      omega
    subst hi1
    simp [c4map] at he
    rw [he]
    decide
  · intro ch hch
    simp [c4map] at hch
    rw [hch]
    unfold KeysDistinct
    simp

/-- C10: `_hmap_get` performs no store: the map component of its result is
the input state, every field included. -/
theorem _hmap_get_snd {K V : Type} (m : HashMap K V) (k : K) :
    (_hmap_get m k).2 = m := by
  simp only [_hmap_get]
  cases hs : getScan m.key_cmp k
    (bucketAt m (keyIdx m.hash_func m.capacity k)).entries <;> simp [hs]

theorem hmap_C10 {K V : Type} (m : HashMap K V) (k : K) :
    (_hmap_get m k).2 = m
      ∧ (_hmap_get m k).2.buckets = m.buckets
      ∧ (_hmap_get m k).2.size = m.size
      ∧ (_hmap_get m k).2.capacity = m.capacity
      ∧ (_hmap_get m k).2.hash_func = m.hash_func
      ∧ (_hmap_get m k).2.key_cmp = m.key_cmp := by
  have h := _hmap_get_snd m k
  exact ⟨h, by rw [h], by rw [h], by rw [h], by rw [h], by rw [h]⟩

/-- C9: with a positive capacity and a non-negative hash, the shared
bucket index `hash_func(key) % capacity` lies in `[0, capacity)`, so the
bucket array subscript is in bounds. -/
theorem hmap_C9 {K V : Type} (m : HashMap K V) (k : K)
    (hcap : 1 ≤ m.capacity) (hh : 0 ≤ m.hash_func k)
    (hlen : m.buckets.length = m.capacity.toNat) :
    0 ≤ bucketPos m k ∧ bucketPos m k < m.capacity
      ∧ keyIdx m.hash_func m.capacity k = (bucketPos m k).toNat
      ∧ (bucketPos m k).toNat < m.buckets.length := by
  obtain ⟨h1, h2⟩ := bucketPos_bounds m k hcap hh
  refine ⟨h1, h2, rfl, ?_⟩
  rw [hlen]
  have := keyIdx_lt m.hash_func m.capacity k hcap
  exact this

theorem hmap_C9_witness :
    1 ≤ c4map.capacity ∧ 0 ≤ c4map.hash_func 0
      ∧ c4map.buckets.length = c4map.capacity.toNat
      ∧ (0 ≤ bucketPos c4map 0 ∧ bucketPos c4map 0 < c4map.capacity
          ∧ keyIdx c4map.hash_func c4map.capacity 0 = (bucketPos c4map 0).toNat
          ∧ (bucketPos c4map 0).toNat < c4map.buckets.length) :=
  ⟨by decide, by decide, by decide, hmap_C9 c4map 0 (by decide) (by decide) (by decide)⟩

/-- C7: `_hmap_get` scans exactly the chain at `hash_func(key) % capacity`
and returns the value of the first entry matching under `key_cmp` wrapped
as present, else the absent option whose error field is the no-error code
`STATUS_OK`. -/
theorem hmap_C7 {K V : Type} (m : HashMap K V) (k : K)
    (hcap : 1 ≤ m.capacity) (hh : 0 ≤ m.hash_func k)
    (hlen : m.buckets.length = m.capacity.toNat) :
    ((bucketPos m k).toNat < m.buckets.length)
      ∧ ((_hmap_get m k).1
          = match (m.buckets.getD (bucketPos m k).toNat _ll_new).entries.find?
              (fun e => m.key_cmp e.key k) with
            | Option.some e => COpt.mkSome e.val
            | Option.none => COpt.mkNone V)
      ∧ ((_hmap_get m k).1.present = false →
          (_hmap_get m k).1.error = StatusCode.STATUS_OK
            ∧ (_hmap_get m k).1.item = Option.none) := by
  have hb : (bucketPos m k).toNat < m.buckets.length := by
    rw [hlen]
    exact keyIdx_lt m.hash_func m.capacity k hcap
  refine ⟨hb, ?_, ?_⟩
  · have hscan := getScan_eq_find? m.key_cmp k
      (bucketAt m (keyIdx m.hash_func m.capacity k)).entries
    cases hf : (m.buckets.getD (bucketPos m k).toNat _ll_new).entries.find?
        (fun e => m.key_cmp e.key k) with
    | some e =>
      apply _hmap_get_fst_of_scan_some
      rw [hscan]
      show ((m.buckets.getD (bucketPos m k).toNat _ll_new).entries.find?
        (fun e => m.key_cmp e.key k)).map HMapEntry.val = _
      rw [hf]
      rfl
    | none =>
      apply _hmap_get_fst_of_scan_none
      rw [hscan]
      show ((m.buckets.getD (bucketPos m k).toNat _ll_new).entries.find?
        (fun e => m.key_cmp e.key k)).map HMapEntry.val = _
      rw [hf]
      rfl
  · intro habs
    have hs := _hmap_get_scan_none_of_absent m k habs
    rw [_hmap_get_fst_of_scan_none m k hs]
    exact ⟨rfl, rfl⟩

theorem hmap_C7_witness :
    1 ≤ c4map.capacity ∧ 0 ≤ c4map.hash_func 1
      ∧ c4map.buckets.length = c4map.capacity.toNat
      ∧ (((bucketPos c4map 1).toNat < c4map.buckets.length)
          ∧ ((_hmap_get c4map 1).1
              = match (c4map.buckets.getD (bucketPos c4map 1).toNat _ll_new).entries.find?
                  (fun e => c4map.key_cmp e.key 1) with
                | Option.some e => COpt.mkSome e.val
                | Option.none => COpt.mkNone Nat)
          ∧ ((_hmap_get c4map 1).1.present = false →
              (_hmap_get c4map 1).1.error = StatusCode.STATUS_OK
                ∧ (_hmap_get c4map 1).1.item = Option.none)) :=
  ⟨by decide, by decide, by decide, hmap_C7 c4map 1 (by decide) (by decide) (by decide)⟩

/-- C8: removing an absent key returns the absent option with the no-error
code and leaves the map (size, capacity, every bucket) untouched, no
matter how often it is repeated. -/
theorem hmap_C8 {K V : Type} (m : HashMap K V) (k : K)
    (habs : (_hmap_get m k).1.present = false) :
    (_hmap_remove m k).1.present = false
      ∧ (_hmap_remove m k).1.error = StatusCode.STATUS_OK
      ∧ (_hmap_remove m k).1.item = Option.none
      ∧ (_hmap_remove m k).2 = m
      ∧ ∀ n : Nat, Nat.iterate (fun s => (_hmap_remove s k).2) n m = m := by
  have hs := _hmap_get_scan_none_of_absent m k habs
  have hr : removeScan m.key_cmp k
      (bucketAt m (keyIdx m.hash_func m.capacity k)).entries = Option.none :=
    (removeScan_none_iff _ _ _).mpr hs
  have hmain := _hmap_remove_nomatch m k hr
  rw [hmain]
  refine ⟨rfl, rfl, rfl, rfl, ?_⟩
  intro n
  apply Function.iterate_fixed
  show (_hmap_remove m k).2 = m
  rw [hmain]

theorem hmap_C8_witness :
    (_hmap_get c4map 1).1.present = false
      ∧ ((_hmap_remove c4map 1).1.present = false
          ∧ (_hmap_remove c4map 1).1.error = StatusCode.STATUS_OK
          ∧ (_hmap_remove c4map 1).1.item = Option.none
          ∧ (_hmap_remove c4map 1).2 = c4map
          ∧ ∀ n : Nat, Nat.iterate (fun s => (_hmap_remove s 1).2) n c4map = c4map) :=
  ⟨by decide, hmap_C8 c4map 1 (by decide)⟩

/-- C1: a `_hmap_put` that inserts a new entry (all allocations succeed)
returns `STATUS_OK`, increments `size` by one, doubles `capacity` exactly
when the new size equals `capacity + 1` and leaves it (and the bucket
array, apart from the appended entry) unchanged otherwise, and every
previously retrievable key keeps its value. -/
theorem hmap_C1 {K V : Type} (m : HashMap K V) (k : K) (v : V)
    (hwf : WF m) (hgs : GoodStrategies m)
    (habs : (_hmap_get m k).1.present = false) :
    (_hmap_put [] m k v).1 = []
      ∧ (_hmap_put [] m k v).2.1 = StatusCode.STATUS_OK
      ∧ (_hmap_put [] m k v).2.2.size = m.size + 1
      ∧ (_hmap_put [] m k v).2.2.capacity
          = (if m.size + 1 = m.capacity + 1
             then HASHMAP_GROWTH_FACTOR * m.capacity
             else m.capacity)
      ∧ (m.size + 1 ≠ m.capacity + 1 → (_hmap_put [] m k v).2.2 = insertMap m k v)
      ∧ (∀ (k₀ : K) (v₀ : V), (_hmap_get m k₀).1 = COpt.mkSome v₀ →
          (_hmap_get (_hmap_put [] m k v).2.2 k₀).1 = COpt.mkSome v₀) := by
  have hnomatch := _hmap_get_scan_none_of_absent m k habs
  have hmain := _hmap_put_insert m k v hwf hnomatch
  have hwfins := wf_insertMap m k v hwf hnomatch
  have hins_size : (insertMap m k v).size = m.size + 1 := rfl
  have hins_cap : (insertMap m k v).capacity = m.capacity := rfl
  obtain ⟨-, -, hrcap, hrsize, -, -, -, -, -, -⟩ := _resize_spec (insertMap m k v) hwfins
  rw [hmain]
  by_cases hthr : m.size + 1 = m.capacity + 1
  · rw [if_pos hthr, if_pos hthr]
    refine ⟨rfl, rfl, ?_, ?_, ?_, ?_⟩
    · show (_resize [] (insertMap m k v)).2.2.size = m.size + 1
      rw [hrsize, hins_size]
    · show (_resize [] (insertMap m k v)).2.2.capacity = HASHMAP_GROWTH_FACTOR * m.capacity
      rw [hrcap, hins_cap]
    · intro hcontra
      exact absurd hthr hcontra
    · intro k₀ v₀ hget
      have h1 := get_insertMap_other m k v hwf k₀ v₀ hget
      exact get_after_resize (insertMap m k v) hwfins hgs.cmp_symm hgs.cmp_trans
        hgs.cmp_hash k₀ v₀ h1
  · rw [if_neg hthr, if_neg hthr]
    refine ⟨rfl, rfl, hins_size, hins_cap, fun _ => rfl, ?_⟩
    intro k₀ v₀ hget
    exact get_insertMap_other m k v hwf k₀ v₀ hget

theorem hmap_C1_witness :
    WF wMap1 ∧ GoodStrategies wMap1 ∧ (_hmap_get wMap1 0).1.present = false
      ∧ ((_hmap_put [] wMap1 0 5).1 = []
          ∧ (_hmap_put [] wMap1 0 5).2.1 = StatusCode.STATUS_OK
          ∧ (_hmap_put [] wMap1 0 5).2.2.size = wMap1.size + 1
          ∧ (_hmap_put [] wMap1 0 5).2.2.capacity
              = (if wMap1.size + 1 = wMap1.capacity + 1
                 then HASHMAP_GROWTH_FACTOR * wMap1.capacity
                 else wMap1.capacity)
          ∧ (wMap1.size + 1 ≠ wMap1.capacity + 1 →
              (_hmap_put [] wMap1 0 5).2.2 = insertMap wMap1 0 5)
          ∧ (∀ (k₀ : Nat) (v₀ : Nat), (_hmap_get wMap1 k₀).1 = COpt.mkSome v₀ →
              (_hmap_get (_hmap_put [] wMap1 0 5).2.2 k₀).1 = COpt.mkSome v₀)) :=
  ⟨wf_wMap1, gs_of_nat wMap1 rfl rfl, by decide,
   hmap_C1 wMap1 0 5 wf_wMap1 (gs_of_nat wMap1 rfl rfl) (by decide)⟩

/-- C2: when the entry insertion succeeds but the triggered resize fails
to allocate the new bucket array (`[true, false]` oracle), `_hmap_put`
returns the out-of-memory status, the map keeps its unresized capacity and
bucket array with the just-inserted entry appended, and the new entry is
retrievable. -/
theorem hmap_C2 {K V : Type} (m : HashMap K V) (k : K) (v : V)
    (hwf : WF m) (hgs : GoodStrategies m)
    (hthr : m.size + 1 = m.capacity + 1)
    (habs : (_hmap_get m k).1.present = false) :
    (_hmap_put [true, false] m k v).2.1 = StatusCode.ERROR_OUT_OF_MEM
      ∧ (_hmap_put [true, false] m k v).2.2 = insertMap m k v
      ∧ (_hmap_put [true, false] m k v).2.2.capacity = m.capacity
      ∧ (_hmap_put [true, false] m k v).2.2.size = m.size + 1
      ∧ (_hmap_put [true, false] m k v).2.2.buckets
          = m.buckets.set (keyIdx m.hash_func m.capacity k)
              (appendedBucket (bucketAt m (keyIdx m.hash_func m.capacity k)) k v)
      ∧ (_hmap_get (_hmap_put [true, false] m k v).2.2 k).1 = COpt.mkSome v := by
  have hnomatch := _hmap_get_scan_none_of_absent m k habs
  have hmain := _hmap_put_insert_resize_fail m k v hwf hnomatch hthr
  rw [hmain]
  exact ⟨rfl, rfl, rfl, rfl, rfl,
    get_insertMap_same m k v hwf (hgs.cmp_refl k) hnomatch⟩

theorem hmap_C2_witness :
    WF c4map ∧ GoodStrategies c4map ∧ c4map.size + 1 = c4map.capacity + 1
      ∧ (_hmap_get c4map 1).1.present = false
      ∧ ((_hmap_put [true, false] c4map 1 11).2.1 = StatusCode.ERROR_OUT_OF_MEM
          ∧ (_hmap_put [true, false] c4map 1 11).2.2 = insertMap c4map 1 11
          ∧ (_hmap_put [true, false] c4map 1 11).2.2.capacity = c4map.capacity
          ∧ (_hmap_put [true, false] c4map 1 11).2.2.size = c4map.size + 1
          ∧ (_hmap_put [true, false] c4map 1 11).2.2.buckets
              = c4map.buckets.set (keyIdx c4map.hash_func c4map.capacity 1)
                  (appendedBucket (bucketAt c4map
                    (keyIdx c4map.hash_func c4map.capacity 1)) 1 11)
          ∧ (_hmap_get (_hmap_put [true, false] c4map 1 11).2.2 1).1
              = COpt.mkSome 11) :=
  ⟨wf_c4map, gs_of_nat c4map rfl rfl, by decide, by decide,
   hmap_C2 c4map 1 11 wf_c4map (gs_of_nat c4map rfl rfl) (by decide) (by decide)⟩

theorem _hmap_put_overwrite₂ {K V : Type} (a : AllocSt) (m : HashMap K V)
    (k : K) (v : V) (hwf : WF m) (l' : List (HMapEntry K V))
    (hscan : putScan m.key_cmp k v
      (bucketAt m (keyIdx m.hash_func m.capacity k)).entries = Option.some l') :
    _hmap_put a m k v = (a, StatusCode.STATUS_OK, overwriteMap m k l') :=
  _hmap_put_overwrite a m k v hwf l' hscan

theorem wf_overwriteMap₂ {K V : Type} (m : HashMap K V) (k : K) (hwf : WF m)
    (l' : List (HMapEntry K V))
    (hkeys : l'.map HMapEntry.key
      = (bucketAt m (keyIdx m.hash_func m.capacity k)).entries.map HMapEntry.key) :
    WF (overwriteMap m k l') :=
  wf_overwriteMap m k hwf l' hkeys

theorem overwriteMap_buckets_len {K V : Type} (m : HashMap K V) (k : K)
    (l' : List (HMapEntry K V)) :
    (overwriteMap m k l').buckets.length = m.buckets.length := by
  unfold overwriteMap
  exact List.length_set _ _ _

theorem bucketAt_overwriteMap {K V : Type} (m : HashMap K V) (k : K)
    (l' : List (HMapEntry K V))
    (hposlt : keyIdx m.hash_func m.capacity k < m.buckets.length) :
    bucketAt (overwriteMap m k l')
      (keyIdx (overwriteMap m k l').hash_func (overwriteMap m k l').capacity k)
        = { entries := l'
            length := (bucketAt m (keyIdx m.hash_func m.capacity k)).length } := by
  show (overwriteMap m k l').buckets.getD (keyIdx m.hash_func m.capacity k) _ll_new = _
  show (m.buckets.set (keyIdx m.hash_func m.capacity k)
    { entries := l'
      length := (bucketAt m (keyIdx m.hash_func m.capacity k)).length }).getD
        (keyIdx m.hash_func m.capacity k) _ll_new = _
  exact getD_set_self _ _ _ _ hposlt

/-- C5: overwriting an already-present key twice leaves `size` and
`capacity` unchanged (the update path never resizes), succeeds both times,
and a subsequent lookup returns the second value. -/
theorem hmap_C5 {K V : Type} (m : HashMap K V) (k : K) (v₁ v₂ : V)
    (hwf : WF m)
    (hpres : (_hmap_get m k).1.present = true) :
    (_hmap_put [] m k v₁).2.1 = StatusCode.STATUS_OK
      ∧ (_hmap_put (_hmap_put [] m k v₁).1 (_hmap_put [] m k v₁).2.2 k v₂).2.1
          = StatusCode.STATUS_OK
      ∧ (_hmap_put (_hmap_put [] m k v₁).1 (_hmap_put [] m k v₁).2.2 k v₂).2.2.size
          = m.size
      ∧ (_hmap_put (_hmap_put [] m k v₁).1 (_hmap_put [] m k v₁).2.2 k v₂).2.2.capacity
          = m.capacity
      ∧ (_hmap_get
          (_hmap_put (_hmap_put [] m k v₁).1 (_hmap_put [] m k v₁).2.2 k v₂).2.2 k).1
            = COpt.mkSome v₂ := by
  have hposlt : keyIdx m.hash_func m.capacity k < m.buckets.length := by
    rw [hwf.buckets_len]
    exact keyIdx_lt _ _ _ hwf.cap_pos
  have hne := _hmap_get_scan_ne_none_of_present m k hpres
  obtain ⟨l₁, hp₁, hlen₁, hkeys₁, hg₁⟩ := putScan_some_spec m.key_cmp k v₁
    (bucketAt m (keyIdx m.hash_func m.capacity k)).entries hne
  have hov₁ := _hmap_put_overwrite₂ [] m k v₁ hwf l₁ hp₁
  have hwf₁ : WF (overwriteMap m k l₁) := wf_overwriteMap₂ m k hwf l₁ hkeys₁
  have hb₁ := bucketAt_overwriteMap m k l₁ hposlt
  have hne₂ : getScan (overwriteMap m k l₁).key_cmp k
      (bucketAt (overwriteMap m k l₁)
        (keyIdx (overwriteMap m k l₁).hash_func (overwriteMap m k l₁).capacity k)).entries
      ≠ Option.none := by
    rw [hb₁]
    show getScan m.key_cmp k l₁ ≠ Option.none
    rw [hg₁]
    intro hc
    exact Option.noConfusion hc
  obtain ⟨l₂, hp₂, hlen₂, hkeys₂, hg₂⟩ := putScan_some_spec
    (overwriteMap m k l₁).key_cmp k v₂
    (bucketAt (overwriteMap m k l₁)
      (keyIdx (overwriteMap m k l₁).hash_func (overwriteMap m k l₁).capacity k)).entries
    hne₂
  have hov₂ := _hmap_put_overwrite₂ [] (overwriteMap m k l₁) k v₂ hwf₁ l₂ hp₂
  rw [hov₁]
  refine ⟨rfl, ?_, ?_, ?_, ?_⟩
  · show (_hmap_put [] (overwriteMap m k l₁) k v₂).2.1 = StatusCode.STATUS_OK
    rw [hov₂]
  · show (_hmap_put [] (overwriteMap m k l₁) k v₂).2.2.size = m.size
    rw [hov₂]
    exact rfl
  · show (_hmap_put [] (overwriteMap m k l₁) k v₂).2.2.capacity = m.capacity
    rw [hov₂]
    exact rfl
  · show (_hmap_get (_hmap_put [] (overwriteMap m k l₁) k v₂).2.2 k).1 = COpt.mkSome v₂
    rw [hov₂]
    apply _hmap_get_fst_of_scan_some
    have hposlt₁ : keyIdx (overwriteMap m k l₁).hash_func (overwriteMap m k l₁).capacity k
        < (overwriteMap m k l₁).buckets.length := by
      rw [overwriteMap_buckets_len]
      exact hposlt
    have hb₂ := bucketAt_overwriteMap (overwriteMap m k l₁) k l₂ hposlt₁
    rw [hb₂]
    exact hg₂

theorem hmap_C5_witness :
    WF c4map ∧ (_hmap_get c4map 0).1.present = true
      ∧ ((_hmap_put [] c4map 0 1).2.1 = StatusCode.STATUS_OK
          ∧ (_hmap_put (_hmap_put [] c4map 0 1).1
              (_hmap_put [] c4map 0 1).2.2 0 2).2.1 = StatusCode.STATUS_OK
          ∧ (_hmap_put (_hmap_put [] c4map 0 1).1
              (_hmap_put [] c4map 0 1).2.2 0 2).2.2.size = c4map.size
          ∧ (_hmap_put (_hmap_put [] c4map 0 1).1
              (_hmap_put [] c4map 0 1).2.2 0 2).2.2.capacity = c4map.capacity
          ∧ (_hmap_get (_hmap_put (_hmap_put [] c4map 0 1).1
              (_hmap_put [] c4map 0 1).2.2 0 2).2.2 0).1 = COpt.mkSome 2) :=
  ⟨wf_c4map, by decide, hmap_C5 c4map 0 1 2 wf_c4map (by decide)⟩

/-- `SpecInv` (the two invariants quoted by claim C6) follows from full
well-formedness together with hash-congruence of the comparison. -/
theorem specInv_of_wf {K V : Type} (m : HashMap K V) (hwf : WF m)
    (hhash : ∀ a b, m.key_cmp a b = true → m.hash_func a = m.hash_func b) :
    SpecInv m :=
  ⟨hwf.size_eq, wf_allKeysDistinct m hwf hhash⟩

/-- C6: the conjunction "size = sum of chain counts, at most one entry per
distinct key" holds for a newly constructed map and, along with full
well-formedness, is preserved by `_hmap_put`, `_hmap_get`, `_hmap_remove`
and `_resize` under the all-success allocator. -/
theorem hmap_C6 {K V : Type} (m : HashMap K V) (k : K) (v : V)
    (hwf : WF m) (hgs : GoodStrategies m) :
    (∀ (hf : K → Int) (kc : K → K → Bool) (cap : Int) (m₀ : HashMap K V),
        1 ≤ cap →
        (_hmap_new_cap [] hf kc cap).2.item = Option.some m₀ →
        WF m₀ ∧ SpecInv m₀)
      ∧ (WF (_hmap_put [] m k v).2.2 ∧ SpecInv (_hmap_put [] m k v).2.2)
      ∧ SpecInv (_hmap_get m k).2
      ∧ (WF (_hmap_remove m k).2 ∧ SpecInv (_hmap_remove m k).2)
      ∧ (WF (_resize [] m).2.2 ∧ SpecInv (_resize [] m).2.2) := by
  refine ⟨?_, ?_, ?_, ?_, ?_⟩
  · intro hf kc cap m₀ hcap heq
    have hval : (_hmap_new_cap ([] : AllocSt) hf kc cap
        : AllocSt × COpt (HashMap K V)).2
        = COpt.mkSome
            { buckets := List.replicate cap.toNat _ll_new
              size := 0
              capacity := cap
              hash_func := hf
              key_cmp := kc } := by
      simp [_hmap_new_cap, mallocTry]
    rw [hval] at heq
    simp only [COpt.mkSome, Option.some.injEq] at heq
    subst heq
    have hsum : sumLen (List.replicate cap.toNat (_ll_new (T := HMapEntry K V))) = 0 := by
      simp [sumLen, List.map_replicate, List.sum_replicate, _ll_new]
    have hall : allEntries
        ({ buckets := List.replicate cap.toNat _ll_new
           size := 0
           capacity := cap
           hash_func := hf
           key_cmp := kc } : HashMap K V) = [] := by
      unfold allEntries
      rw [List.flatten_eq_nil_iff]
      intro l hl
      simp only [List.map_replicate, List.mem_replicate] at hl
      rw [hl.2]
      rfl
    constructor
    · constructor
      · simp
      · exact hcap
      · show (0 : Int) = _
        rw [hsum]
        rfl
      · intro ch hch
        rw [List.eq_of_mem_replicate hch]
        simp [_ll_new]
      · intro i hi e he
        rw [List.getElem_replicate] at he
        simp [_ll_new] at he
      · intro ch hch
        rw [List.eq_of_mem_replicate hch]
        unfold KeysDistinct
        simp [_ll_new]
    · constructor
      · show (0 : Int) = _
        rw [hsum]
        rfl
      · rw [hall]
        unfold KeysDistinct
        simp
  · cases hs : getScan m.key_cmp k
        (bucketAt m (keyIdx m.hash_func m.capacity k)).entries with
    | none =>
      rw [_hmap_put_insert m k v hwf hs]
      have hwfi := wf_insertMap m k v hwf hs
      by_cases hthr : m.size + 1 = m.capacity + 1
      · rw [if_pos hthr]
        have hwfr := _resize_wf (insertMap m k v) hwfi hgs.cmp_symm hgs.cmp_hash
        exact ⟨hwfr, specInv_of_wf _ hwfr hgs.cmp_hash⟩
      · rw [if_neg hthr]
        exact ⟨hwfi, specInv_of_wf _ hwfi hgs.cmp_hash⟩
    | some v₀ =>
      have hne : getScan m.key_cmp k
          (bucketAt m (keyIdx m.hash_func m.capacity k)).entries ≠ Option.none := by
        rw [hs]
        intro hc
        exact Option.noConfusion hc
      obtain ⟨l', hp, hlen, hkeys, hg⟩ := putScan_some_spec m.key_cmp k v
        (bucketAt m (keyIdx m.hash_func m.capacity k)).entries hne
      rw [_hmap_put_overwrite₂ [] m k v hwf l' hp]
      have hwfo := wf_overwriteMap₂ m k hwf l' hkeys
      exact ⟨hwfo, specInv_of_wf _ hwfo hgs.cmp_hash⟩
  · rw [_hmap_get_snd m k]
    exact specInv_of_wf m hwf hgs.cmp_hash
  · cases hs : removeScan m.key_cmp k
        (bucketAt m (keyIdx m.hash_func m.capacity k)).entries with
    | none =>
      rw [_hmap_remove_nomatch m k hs]
      exact ⟨hwf, specInv_of_wf m hwf hgs.cmp_hash⟩
    | some p =>
      obtain ⟨i, e⟩ := p
      have hwfr := wf_removeMap m k hwf i e hs
      refine ⟨hwfr, ?_⟩
      have hkc : (_hmap_remove m k).2.key_cmp = m.key_cmp := by
        rw [_hmap_remove_match m k hwf i e hs]
      have hhf : (_hmap_remove m k).2.hash_func = m.hash_func := by
        rw [_hmap_remove_match m k hwf i e hs]
      apply specInv_of_wf _ hwfr
      intro a b hab
      rw [hkc] at hab
      rw [hhf]
      exact hgs.cmp_hash a b hab
  · have hwfr := _resize_wf m hwf hgs.cmp_symm hgs.cmp_hash
    exact ⟨hwfr, specInv_of_wf _ hwfr hgs.cmp_hash⟩

theorem hmap_C6_witness :
    WF c4map ∧ GoodStrategies c4map
      ∧ ((∀ (hf : Nat → Int) (kc : Nat → Nat → Bool) (cap : Int)
            (m₀ : HashMap Nat Nat),
            1 ≤ cap →
            (_hmap_new_cap [] hf kc cap).2.item = Option.some m₀ →
            WF m₀ ∧ SpecInv m₀)
          ∧ (WF (_hmap_put [] c4map 0 7).2.2 ∧ SpecInv (_hmap_put [] c4map 0 7).2.2)
          ∧ SpecInv (_hmap_get c4map 0).2
          ∧ (WF (_hmap_remove c4map 0).2 ∧ SpecInv (_hmap_remove c4map 0).2)
          ∧ (WF (_resize [] c4map).2.2 ∧ SpecInv (_resize [] c4map).2.2)) :=
  ⟨wf_c4map, gs_of_nat c4map rfl rfl,
   hmap_C6 c4map 0 7 wf_c4map (gs_of_nat c4map rfl rfl)⟩

/-- C3, evaluated on the code at the failing input: with capacity 0 and a
succeeding `malloc(0)` the constructor performs no zero-capacity check and
returns a PRESENT map with capacity 0 and an empty bucket array — not an
absent `OptionalResult` carrying `ERROR_BAD_ARG` as the claim asserts. -/
theorem hmap_C3 :
    ((_hmap_new_cap [] natHash natCmp 0).2 : COpt (HashMap Nat Nat)).present = true
      ∧ ((_hmap_new_cap [] natHash natCmp 0).2 : COpt (HashMap Nat Nat)).error
          = StatusCode.STATUS_OK
      ∧ (∃ m₀ : HashMap Nat Nat,
          ((_hmap_new_cap [] natHash natCmp 0).2 : COpt (HashMap Nat Nat)).item
              = Option.some m₀
            ∧ m₀.capacity = 0 ∧ m₀.buckets = []) := by
  refine ⟨by decide, by decide,
    ⟨{ buckets := []
       size := 0
       capacity := 0
       hash_func := natHash
       key_cmp := natCmp }, ?_, rfl, rfl⟩⟩
  rfl

/-- C4, evaluated on the code at the failing input: starting from the
capacity-1 map holding (0, 10), a `put(1, 11)` whose third allocation (the
chain node for re-inserting entry (0, 10) during the triggered resize)
fails reports `STATUS_OK`, yet the previously stored entry (0, 10) has
been silently dropped: `size` stays 2 while only one entry remains, and
`get 0` is absent afterwards. -/
theorem hmap_C4 :
    (_hmap_get c4map 0).1.present = true
      ∧ (_hmap_get c4map 0).1.item = Option.some 10
      ∧ (_hmap_put [true, true, false, true] c4map 1 11).2.1 = StatusCode.STATUS_OK
      ∧ (_hmap_put [true, true, false, true] c4map 1 11).2.2.size = 2
      ∧ sumLen (_hmap_put [true, true, false, true] c4map 1 11).2.2.buckets = 1
      ∧ (_hmap_get (_hmap_put [true, true, false, true] c4map 1 11).2.2 0).1.present
          = false := by
  refine ⟨by decide, by decide, by decide, by decide, by decide, by decide⟩

end Hmap
